import Mathlib

/-!
# Corner Grocer item tracker

A shallow embedding of `CornerGrocer.cpp` and proofs about it.

* Text (`std::string`, stream contents) is a list of characters.
* `std::map<std::string, int>` is its in-order sequence of entries: a list of
  `(item, count)` pairs kept strictly ascending by `strLt`, the embedding of
  `std::less<std::string>`.
* `int` is an `Int` kept in the 32-bit range: incrementing 2147483647 gives
  -2147483648, as the two's complement hardware does (the language leaves the
  result of that increment undefined; whatever it is, it is an `int`).
* `std::cin` is the text still to be read; the console is a log of events,
  one per `<<` and one per `setColor` call.
* `runMenu` may loop for ever, so it takes a bound on the number of
  iterations and answers `none` when the bound is reached.
-/

namespace CornerGrocer

/-! ## Text, characters and `int` -/

/-- Text: the characters of a `std::string` or of a stream. -/
abbrev Str := List Char

/-- The test `std::isspace` of the "C" locale: space, `\t`, `\n`, `\v`, `\f`, `\r`. -/
def isSpace (c : Char) : Bool :=
  c == ' ' || c == Char.ofNat 9 || c == Char.ofNat 10 || c == Char.ofNat 11 ||
    c == Char.ofNat 12 || c == Char.ofNat 13

/-- A decimal digit. -/
def isDigit (c : Char) : Bool :=
  decide (48 ≤ c.toNat) && decide (c.toNat ≤ 57)

/-- Largest value of `int`. -/
def INT_MAX : Int := 2147483647

/-- Smallest value of `int`. -/
def INT_MIN : Int := -2147483648

/-- The `int` that 32-bit two's complement arithmetic gives for the result `x`:
`x` itself from -2147483648 to 2147483647, wrapped round outside. -/
def wrapInt (x : Int) : Int := (x + 2147483648) % 4294967296 - 2147483648

/-- The order `std::less<std::string>`: lexicographic by character code, a proper
prefix before its extensions. -/
def strLt : Str → Str → Bool
  | [], [] => false
  | [], _ :: _ => true
  | _ :: _, [] => false
  | a :: as, b :: bs =>
    if a < b then true else if b < a then false else strLt as bs

/-! ## Formatted output and input of numbers and words -/

/-- The character of the digit `d`. -/
def digitChar (d : Nat) : Char := Char.ofNat (48 + d)

/-- The decimal digits of `n`, most significant first; the first argument bounds
the number of digits. -/
def natDigits : Nat → Nat → Str
  | 0, _ => []
  | f + 1, n => if n < 10 then [digitChar n] else natDigits f (n / 10) ++ [digitChar (n % 10)]

/-- The text `<<` writes for a natural number. -/
def showNat (n : Nat) : Str := natDigits (n + 1) n

/-- The text `<<` writes for an `int`. -/
def showInt (i : Int) : Str :=
  if i < 0 then '-' :: showNat i.natAbs else showNat i.natAbs

/-- The value of a digit character. -/
def digitVal (c : Char) : Nat := c.toNat - 48

/-- The value of a run of digits. -/
def digitsVal (ds : Str) : Nat := ds.foldl (fun a c => 10 * a + digitVal c) 0

/-- The extraction `stream >> word` for a `std::string`: skip leading white space,
then take characters up to the next white space or the end. It fails, with an
empty word, when the end comes first. Returns the word, if any, and the rest of
the stream. -/
def extractWord (s : Str) : Option Str × Str :=
  let s1 := s.dropWhile isSpace
  let w := s1.takeWhile (fun c => !isSpace c)
  let rest := s1.dropWhile (fun c => !isSpace c)
  if w = [] then (none, rest) else (some w, rest)

/-- The sign read by `stream >> n`, and the text after it. -/
def readSign : Str → Bool × Str
  | [] => (false, [])
  | c :: r => if c = '-' then (true, r) else if c = '+' then (false, r) else (false, c :: r)

/-- The extraction `stream >> n` for an `int`: skip leading white space, read an
optional sign and the digits that follow. It fails when there is no digit or the
number is not an `int`. Returns the number, if any, and the rest of the stream. -/
def readInt (s : Str) : Option Int × Str :=
  let p := readSign (s.dropWhile isSpace)
  let ds := p.2.takeWhile isDigit
  let rest := p.2.dropWhile isDigit
  if ds = [] then (none, rest)
  else
    let v : Int := if p.1 then -(digitsVal ds : Int) else (digitsVal ds : Int)
    if INT_MIN ≤ v ∧ v ≤ INT_MAX then (some v, rest) else (none, rest)

/-- The call `std::cin.ignore(max, newline)`: discard up to and including the next
line end. -/
def ignoreLine : Str → Str
  | [] => []
  | c :: cs => if c = Char.ofNat 10 then cs else ignoreLine cs

/-! ## The frequency table -/

/-- The table `freq_`: the entries of the map in iteration order. -/
abbrev Table := List (Str × Int)

/-- The lookup `freq_.find(item)`: the count stored for the item, if any. -/
def find : Table → Str → Option Int
  | [], _ => none
  | (k, v) :: rest, item => if k = item then some v else find rest item

/-- The statement `++freq_[item]`: an absent item is entered with count 0, then
the count is incremented. -/
def increment : Table → Str → Table
  | [], item => [(item, wrapInt (0 + 1))]
  | (k, v) :: rest, item =>
    if strLt item k then (item, wrapInt (0 + 1)) :: (k, v) :: rest
    else if strLt k item then (k, v) :: increment rest item
    else (k, wrapInt (v + 1)) :: rest

/-- The keys of the table in iteration order. -/
def keys (t : Table) : List Str := t.map Prod.fst

/-- The table is strictly ascending by item: each entry is before all later ones. -/
def Ascending (t : Table) : Prop := t.Pairwise (fun a b => strLt a.1 b.1 = true)

/-- No item of the table holds a white space character. -/
def SolidKeys (t : Table) : Prop := ∀ k ∈ keys t, ∀ c ∈ k, isSpace c = false

/-- The sum of the counts of all entries. -/
def totalCount (t : Table) : Int := (t.map Prod.snd).sum

/-! ## Loading -/

/-- The words that repeated `fin >> item` reads from a stream, in order, up to
the first failure. -/
def tokensOf (s : Str) : List Str :=
  match h : extractWord s with
  | (none, _) => []
  | (some w, rest) => w :: tokensOf rest
termination_by s.length
decreasing_by
  simp only [extractWord] at h
  split at h
  · simp at h
  · rename_i hw
    simp only [Prod.mk.injEq, Option.some.injEq] at h
    have h1 := congrArg List.length
      (List.takeWhile_append_dropWhile (fun c => !isSpace c) (s.dropWhile isSpace))
    have h2 : (s.dropWhile isSpace).length ≤ s.length :=
      (List.dropWhile_sublist isSpace).length_le
    have h3 : 0 < ((s.dropWhile isSpace).takeWhile (fun c => !isSpace c)).length :=
      List.length_pos.mpr hw
    rw [List.length_append] at h1
    rw [← h.2]
    omega

/-- The loop `while (fin >> item) ++freq_[item];` run on a stream. -/
def loadLoop (s : Str) (t : Table) : Table :=
  match h : extractWord s with
  | (none, _) => t
  | (some item, rest) => loadLoop rest (increment t item)
termination_by s.length
decreasing_by
  simp only [extractWord] at h
  split at h
  · simp at h
  · rename_i hw
    simp only [Prod.mk.injEq, Option.some.injEq] at h
    have h1 := congrArg List.length
      (List.takeWhile_append_dropWhile (fun c => !isSpace c) (s.dropWhile isSpace))
    have h2 : (s.dropWhile isSpace).length ≤ s.length :=
      (List.dropWhile_sublist isSpace).length_le
    have h3 : 0 < ((s.dropWhile isSpace).takeWhile (fun c => !isSpace c)).length :=
      List.length_pos.mpr hw
    rw [List.length_append] at h1
    rw [← h.2]
    omega

/-- The call `freq_.clear()`. -/
def clear (_ : Table) : Table := []

/-- The path of the input file that `main` passes to the constructor. -/
def inputPath : Str := "CS210_Project_Three_Input_File.txt".toList

/-- The method `loadFromFile`. The argument `file` is the text of the file at
`inputFilePath_`, or `none` when the file cannot be opened. The old table is
cleared first; an exception is an `error` carrying its message. -/
def loadFromFile (inputFilePath_ : Str) (freq_ : Table) (file : Option Str) : Except Str Table :=
  let cleared : Table := clear freq_
  match file with
  | none => .error ("Failed to open input file: ".toList ++ inputFilePath_)
  | some content => .ok (loadLoop content cleared)

/-- The count of `getFrequency`: the stored count, 0 for an absent item. -/
def getFrequency (freq_ : Table) (item : Str) : Int :=
  match find freq_ item with
  | some v => v
  | none => 0

/-! ## The console and the reports -/

/-- One event of the console: text written to `std::cout`, text written to
`std::cerr`, or a call of `setColor`. -/
inductive Ev where
  | out (s : Str)
  | err (s : Str)
  | color (c : Nat)
  deriving DecidableEq, Repr

/-- The call `setColor(color)`. -/
def setColor (color : Nat) : Ev := Ev.color color

/-- The text a log shows on standard output, colours left out. -/
def outText : List Ev → Str
  | [] => []
  | Ev.out s :: rest => s ++ outText rest
  | _ :: rest => outText rest

/-- The text a log shows on standard error. -/
def errText : List Ev → Str
  | [] => []
  | Ev.err s :: rest => s ++ errText rest
  | _ :: rest => errText rest

/-- The text of one backup line: `fout << kv.first << " " << kv.second << "\n"`. -/
def backupLine (kv : Str × Int) : Str :=
  kv.1 ++ " ".toList ++ showInt kv.2 ++ "\n".toList

/-- The text `writeBackup` writes for a table: one line per entry. -/
def backupText : Table → Str
  | [] => []
  | kv :: rest => backupLine kv ++ backupText rest

/-- The default argument of `writeBackup`. -/
def backupPath : Str := "frequency.dat".toList

/-- The method `writeBackup`. The argument `sinkOk` says whether the output file
can be opened for writing. Returns the text written to the file. -/
def writeBackup (freq_ : Table) (sinkOk : Bool) (outPath : Str) : Except Str Str :=
  if sinkOk then .ok (backupText freq_)
  else .error ("Failed to write backup file: ".toList ++ outPath)

/-- The placeholder printed for an empty table. -/
def noItems : Ev := Ev.out "[No items loaded]\n".toList

/-- The events of one line of `printAll`. -/
def listLine (kv : Str × Int) : List Ev :=
  [Ev.out kv.1, Ev.out " ".toList, Ev.out (showInt kv.2), Ev.out "\n".toList]

/-- The loop of `printAll` over the entries. -/
def listLines : Table → List Ev
  | [] => []
  | kv :: rest => listLine kv ++ listLines rest

/-- The method `printAll`. -/
def printAll (freq_ : Table) : List Ev :=
  Ev.out "\n=== Item Frequencies ===\n".toList ::
    (if freq_.isEmpty then [noItems] else listLines freq_)

/-- The colour `printHistogram` chooses for a count. -/
def histColor (count : Int) : Nat :=
  if count ≤ 3 then 12
  else if count ≤ 6 then 6
  else if count ≤ 9 then 14
  else 10

/-- The loop `for (int i = 0; i < count; ++i) std::cout << "*";`. -/
def stars (count : Int) : List Ev := List.replicate count.toNat (Ev.out "*".toList)

/-- The events of one entry of `printHistogram`. -/
def histLine (kv : Str × Int) : List Ev :=
  [Ev.out kv.1, Ev.out " ".toList, setColor (histColor kv.2)] ++ stars kv.2 ++
    [setColor 7, Ev.out "\n".toList]

/-- The loop of `printHistogram` over the entries. -/
def histLines : Table → List Ev
  | [] => []
  | kv :: rest => histLine kv ++ histLines rest

/-- The method `printHistogram`. -/
def printHistogram (freq_ : Table) : List Ev :=
  Ev.out "\n=== Purchase Histogram ===\n".toList ::
    (if freq_.isEmpty then [noItems] else histLines freq_)

/-! ## The interactive session -/

/-- The state `runMenu` works on: the table, standard input and the console log. -/
structure Machine where
  freq_ : Table
  cin : Str
  log : List Ev
  deriving DecidableEq, Repr

/-- The menu and the prompt printed at the start of each iteration. -/
def menuText : List Ev :=
  [Ev.out "\nCorner Grocer Item Tracker\n".toList,
   Ev.out "1. Query item frequency\n".toList,
   Ev.out "2. Print all item frequencies\n".toList,
   Ev.out "3. Print histogram\n".toList,
   setColor 12,
   Ev.out "4. Exit\n".toList,
   setColor 7,
   Ev.out "Select an option (1-4): ".toList]

/-- The message for a selection that is not a number. -/
def invalidInput : Ev := Ev.out "Invalid input. Please enter a number from 1 to 4.\n".toList

/-- The message for a number outside 1 to 4. -/
def invalidOption : Ev := Ev.out "Invalid option. Please select 1-4.\n".toList

/-- The farewell printed on exit. -/
def goodbye : List Ev :=
  [setColor 12, Ev.out "Exiting program. Goodbye!\n".toList, setColor 7]

/-- The events of a query: the prompt, then the item and its count. -/
def queryEvents (freq_ : Table) (query : Str) : List Ev :=
  [Ev.out "Enter item name: ".toList, Ev.out query, Ev.out " ".toList,
   Ev.out (showInt (getFrequency freq_ query)), Ev.out "\n".toList]

/-- The result of one iteration of the loop of `runMenu`. -/
inductive Step where
  | running (m : Machine)
  | terminated (m : Machine)
  deriving DecidableEq, Repr

/-- One iteration of the loop of `runMenu`. -/
def menuBody (m : Machine) : Step :=
  let log := m.log ++ menuText
  match readInt m.cin with
  | (none, rest) =>
    .running { m with cin := ignoreLine rest, log := log ++ [invalidInput] }
  | (some option, rest) =>
    if option = 1 then
      let r := extractWord rest
      let query : Str := r.1.getD []
      .running { m with cin := r.2, log := log ++ queryEvents m.freq_ query }
    else if option = 2 then
      .running { m with cin := rest, log := log ++ printAll m.freq_ }
    else if option = 3 then
      .running { m with cin := rest, log := log ++ printHistogram m.freq_ }
    else if option = 4 then
      .terminated { m with cin := rest, log := log ++ goodbye }
    else
      .running { m with cin := rest, log := log ++ [invalidOption] }

/-- The method `runMenu`, run for at most `fuel` iterations: `none` when the loop
has not reached `break` by then. -/
def runMenu : Nat → Machine → Option Machine
  | 0, _ => none
  | fuel + 1, m =>
    match menuBody m with
    | .terminated m1 => some m1
    | .running m1 => runMenu fuel m1

/-! ## The program -/

/-- What a run of the program leaves behind: the exit code, the text written to
the backup file (`none` when the file was never opened), the input left unread
and the console log. -/
structure Outcome where
  exitCode : Int
  backup : Option Str
  cin : Str
  log : List Ev
  deriving DecidableEq, Repr

/-- The handler `catch (const std::exception& ex)` of `main`. -/
def fatal (what : Str) : List Ev :=
  [setColor 12, Ev.err "Fatal error: ".toList, Ev.err what, Ev.err "\n".toList, setColor 7]

/-- The function `main`. `file` is the text of the input file, or `none` when it
cannot be opened; `sinkOk` says whether the backup file can be opened; `stdin` is
the standard input; `fuel` bounds the iterations of the menu loop. -/
def main (file : Option Str) (sinkOk : Bool) (stdin : Str) (fuel : Nat) : Option Outcome :=
  match loadFromFile inputPath [] file with
  | .error what => some { exitCode := 1, backup := none, cin := stdin, log := fatal what }
  | .ok freq_ =>
    match writeBackup freq_ sinkOk backupPath with
    | .error what => some { exitCode := 1, backup := none, cin := stdin, log := fatal what }
    | .ok text =>
      match runMenu fuel { freq_ := freq_, cin := stdin, log := [] } with
      | none => none
      | some m => some { exitCode := 0, backup := some text, cin := m.cin, log := m.log }

/-! ## Reading a backup file back -/

/-- The lines of a text: the runs of characters that the line ends close; text
after the last line end is a line too. -/
def splitLines : Str → List Str
  | [] => []
  | c :: cs =>
    if c = Char.ofNat 10 then [] :: splitLines cs
    else
      match splitLines cs with
      | [] => [[c]]
      | l :: ls => (c :: l) :: ls

/-- The number written by a run of digits, if it is one. -/
def parseNat (ds : Str) : Option Nat :=
  if ds ≠ [] ∧ ds.all isDigit = true then some (digitsVal ds) else none

/-- The integer written by a text: digits, with or without a minus sign before. -/
def parseInt : Str → Option Int
  | [] => none
  | c :: cs =>
    if c = '-' then (parseNat cs).map (fun n => -(n : Int))
    else (parseNat (c :: cs)).map (fun n => (n : Int))

/-- One line split into an item and an integer at its first space. -/
def parseLine (line : Str) : Option (Str × Int) :=
  match line.dropWhile (fun c => c != ' ') with
  | [] => none
  | _ :: number => (parseInt number).map (fun n => (line.takeWhile (fun c => c != ' '), n))

/-- The entries that a list of lines stands for, if every line is well formed. -/
def parseLines : List Str → Option Table
  | [] => some []
  | l :: ls =>
    match parseLine l, parseLines ls with
    | some e, some es => some (e :: es)
    | _, _ => none

/-- A backup text read back: split into lines, each line into item and integer. -/
def parseBackup (text : Str) : Option Table := parseLines (splitLines text)

/-! ## Observations on the console and the session -/

/-- The colours that a log sets, in order. -/
def colorsOf : List Ev → List Nat
  | [] => []
  | Ev.color c :: rest => c :: colorsOf rest
  | _ :: rest => colorsOf rest

/-- The text of one histogram line with a bar of `n` asterisks. -/
def barLine (item : Str) (n : Nat) : Str :=
  item ++ ' ' :: (List.replicate n '*' ++ [Char.ofNat 10])

/-- The machine a step ends in. -/
def Step.machine : Step → Machine
  | .running m => m
  | .terminated m => m

/-- The machine after `n` iterations of the loop of `runMenu`, or after the
iteration that ends the loop when that comes first. -/
def runSteps : Nat → Machine → Machine
  | 0, m => m
  | n + 1, m =>
    match menuBody m with
    | .running m1 => runSteps n m1
    | .terminated m1 => m1

/-! ## Selections typed at the menu -/

/-- One selection typed at the menu: the number, and the word typed at the prompt
for an item, which is asked for when the number is 1. -/
structure Selection where
  option : Int
  query : Str
  deriving DecidableEq, Repr

/-- The number of the selection is an `int`. -/
def Selection.fits (s : Selection) : Prop := INT_MIN ≤ s.option ∧ s.option ≤ INT_MAX

instance (s : Selection) : Decidable s.fits := by
  unfold Selection.fits
  exact inferInstance

/-- The lines typed for a selection: the number, and after the number 1 the item. -/
def Selection.text (s : Selection) : Str :=
  showInt s.option ++ Char.ofNat 10 :: (if s.option = 1 then s.query ++ [Char.ofNat 10] else [])

/-- The lines typed for a sequence of selections. -/
def feed : List Selection → Str
  | [] => []
  | s :: rest => s.text ++ feed rest

/-- What the session is to print, after the menu, for a selection: the count for a
query, the list, the histogram, the farewell, and for any other number one
message that the selection is invalid. -/
def response (freq_ : Table) (s : Selection) : List Ev :=
  if ¬ s.fits then [invalidInput]
  else if s.option = 1 then queryEvents freq_ s.query
  else if s.option = 2 then printAll freq_
  else if s.option = 3 then printHistogram freq_
  else if s.option = 4 then goodbye
  else [invalidOption]

/-- What the session is to print for a sequence of selections: for each, the menu
and the response. -/
def transcript (freq_ : Table) : List Selection → List Ev
  | [] => []
  | s :: rest => menuText ++ response freq_ s ++ transcript freq_ rest

/-- What is left of the line of a selection once the session has dealt with it:
the line end, unless the rest of the line was discarded. -/
def residue (s : Selection) : Str := if s.fits then [Char.ofNat 10] else []

/-- A word that can be typed as an item: not empty and free of white space. -/
def IsWord (w : Str) : Prop := w ≠ [] ∧ ∀ c ∈ w, isSpace c = false

instance (w : Str) : Decidable (IsWord w) := by
  unfold IsWord
  exact inferInstance

/-! ## Selections that are not numbers -/

/-- The text starts with a digit. -/
def startsDigit : Str → Bool
  | [] => false
  | d :: _ => isDigit d

/-- The text starts a number: a digit, or a sign with a digit after it. -/
def startsNumber : Str → Bool
  | [] => false
  | c :: r => if c = '-' ∨ c = '+' then startsDigit r else isDigit c

/-! ## Inputs used in the examples -/

/-- The text `s` written `n` times. -/
def repeatText : Nat → Str → Str
  | 0, _ => []
  | n + 1, s => s ++ repeatText n s

/-- A session of three selections before the exit: an invalid number, a query
for `kiwi` and a list. -/
def sampleSelections : List Selection :=
  [{ option := 5, query := [] }, { option := 1, query := "kiwi".toList },
   { option := 2, query := [] }]

/-- An input file of 2147483648 lines, each the item `a`. -/
def manyA : Str := repeatText 2147483648 ['a', Char.ofNat 10]

/-! ## The order on items and the table operations -/

theorem strLt_irrefl (a : Str) : strLt a a = false := by
  induction a with
  | nil => rfl
  | cons c cs ih => simp [strLt, ih]

theorem strLt_trans : ∀ (a b c : Str), strLt a b = true → strLt b c = true → strLt a c = true
  | [], [], _, h, _ => by simp [strLt] at h
  | [], _ :: _, [], _, h => by simp [strLt] at h
  | [], _ :: _, _ :: _, _, _ => by simp [strLt]
  | _ :: _, [], _, h, _ => by simp [strLt] at h
  | _ :: _, _ :: _, [], _, h => by simp [strLt] at h
  | x :: xs, y :: ys, z :: zs, h1, h2 => by
    simp only [strLt] at h1 h2 ⊢
    by_cases hxy : x < y
    · by_cases hyz : y < z
      · simp [lt_trans hxy hyz]
      · by_cases hzy : z < y
        · simp [hyz, hzy] at h2
        · have : y = z := le_antisymm (not_lt.mp hzy) (not_lt.mp hyz)
          subst this
          simp [hxy]
    · by_cases hyx : y < x
      · simp [hxy, hyx] at h1
      · have : x = y := le_antisymm (not_lt.mp hyx) (not_lt.mp hxy)
        subst this
        simp only [hxy, if_false] at h1
        by_cases hxz : x < z
        · simp [hxz]
        · by_cases hzx : z < x
          · simp [hxz, hzx] at h2
          · simp only [hxz, hzx, if_false] at h2 ⊢
            exact strLt_trans xs ys zs h1 h2

theorem strLt_asymm (a b : Str) (h : strLt a b = true) : strLt b a = false := by
  cases hba : strLt b a with
  | false => rfl
  | true =>
    have := strLt_trans a b a h hba
    rw [strLt_irrefl] at this
    exact this.symm

theorem strLt_total : ∀ (a b : Str), strLt a b = false → strLt b a = false → a = b
  | [], [], _, _ => rfl
  | [], _ :: _, h, _ => by simp [strLt] at h
  | _ :: _, [], _, h => by simp [strLt] at h
  | x :: xs, y :: ys, h1, h2 => by
    simp only [strLt] at h1 h2
    by_cases hxy : x < y
    · simp [hxy] at h1
    · by_cases hyx : y < x
      · simp [hyx] at h2
      · have : x = y := le_antisymm (not_lt.mp hyx) (not_lt.mp hxy)
        subst this
        simp only [hxy, if_false] at h1 h2
        rw [strLt_total xs ys h1 h2]


theorem wrapInt_succ (x : Int) : wrapInt (wrapInt x + 1) = wrapInt (x + 1) := by
  unfold wrapInt
  omega

theorem wrapInt_of_range (x : Int) (h1 : -2147483648 ≤ x) (h2 : x < 2147483648) :
    wrapInt x = x := by
  unfold wrapInt
  omega

theorem find_eq_none_iff (t : Table) (k : Str) : find t k = none ↔ k ∉ keys t := by
  induction t with
  | nil => simp [find, keys]
  | cons kv rest ih =>
    obtain ⟨k1, v⟩ := kv
    simp only [find, keys, List.map_cons, List.mem_cons, not_or] at ih ⊢
    by_cases h : k1 = k
    · simp [h]
    · simp only [h, if_false, ih]
      constructor
      · intro h2
        exact ⟨fun h3 => h h3.symm, h2⟩
      · intro h2
        exact h2.2

theorem mem_keys_increment (t : Table) (k x : Str) :
    x ∈ keys (increment t k) ↔ x = k ∨ x ∈ keys t := by
  induction t with
  | nil => simp [increment, keys]
  | cons kv rest ih =>
    obtain ⟨k1, v⟩ := kv
    simp only [increment]
    cases h1 : strLt k k1 with
    | true => simp [keys]
    | false =>
      cases h2 : strLt k1 k with
      | true =>
        simp only [Bool.false_eq_true, ↓reduceIte, keys, List.map_cons, List.mem_cons] at ih ⊢
        rw [ih]
        tauto
      | false =>
        have hk : k = k1 := strLt_total k k1 h1 h2
        subst hk
        simp [keys]

theorem ascending_increment (t : Table) (k : Str) (h : Ascending t) :
    Ascending (increment t k) := by
  induction t with
  | nil => simp [increment, Ascending]
  | cons kv rest ih =>
    obtain ⟨k1, v⟩ := kv
    unfold Ascending at h ih ⊢
    rw [List.pairwise_cons] at h
    simp only [increment]
    cases h1 : strLt k k1 with
    | true =>
      simp only [↓reduceIte]
      refine List.pairwise_cons.mpr ⟨?_, List.pairwise_cons.mpr h⟩
      intro b hb
      rcases List.mem_cons.mp hb with hb | hb
      · subst hb
        exact h1
      · exact strLt_trans _ _ _ h1 (h.1 b hb)
    | false =>
      cases h2 : strLt k1 k with
      | true =>
        simp only [Bool.false_eq_true, ↓reduceIte]
        refine List.pairwise_cons.mpr ⟨?_, ih h.2⟩
        intro b hb
        have hb2 : b.1 ∈ keys (increment rest k) := List.mem_map_of_mem Prod.fst hb
        rcases (mem_keys_increment rest k b.1).mp hb2 with hb3 | hb3
        · rw [hb3]
          exact h2
        · obtain ⟨c, hc, hc2⟩ := List.mem_map.mp hb3
          rw [← hc2]
          exact h.1 c hc
      | false =>
        simp only [Bool.false_eq_true, ↓reduceIte]
        exact List.pairwise_cons.mpr ⟨fun b hb => h.1 b hb, h.2⟩

theorem find_of_lt_all (t : Table) (k : Str) (h : ∀ b ∈ t, strLt k b.1 = true) :
    find t k = none := by
  rw [find_eq_none_iff]
  intro hk
  obtain ⟨c, hc, hc2⟩ := List.mem_map.mp hk
  have := h c hc
  rw [hc2, strLt_irrefl] at this
  exact Bool.noConfusion this

theorem ne_of_strLt (a b : Str) (h : strLt a b = true) : a ≠ b := by
  intro e
  rw [e, strLt_irrefl] at h
  exact Bool.noConfusion h

theorem find_increment (t : Table) (k x : Str) (h : Ascending t) :
    find (increment t k) x =
      if x = k then some (wrapInt ((find t k).getD 0 + 1)) else find t x := by
  induction t with
  | nil =>
    by_cases hx : x = k
    · simp [increment, find, hx]
    · have hx2 : ¬ k = x := fun e => hx e.symm
      simp [increment, find, hx, hx2]
  | cons kv rest ih =>
    obtain ⟨k1, v⟩ := kv
    unfold Ascending at h ih
    rw [List.pairwise_cons] at h
    simp only [increment]
    cases h1 : strLt k k1 with
    | true =>
      have hne : ¬ k1 = k := fun e => ne_of_strLt _ _ h1 e.symm
      have hnone : find rest k = none := by
        apply find_of_lt_all
        intro b hb
        exact strLt_trans _ _ _ h1 (h.1 b hb)
      simp only [↓reduceIte, find, hne, hnone, Option.getD_none]
      by_cases hx : x = k
      · simp [hx]
      · have hx2 : ¬ k = x := fun e => hx e.symm
        simp [hx, hx2]
    | false =>
      cases h2 : strLt k1 k with
      | true =>
        have hne : ¬ k1 = k := ne_of_strLt _ _ h2
        simp only [Bool.false_eq_true, ↓reduceIte, find, hne, ih h.2]
        by_cases hx : x = k
        · subst hx
          simp [hne]
        · simp [hx]
      | false =>
        have hk : k = k1 := strLt_total k k1 h1 h2
        subst hk
        simp only [Bool.false_eq_true, ↓reduceIte, find, Option.getD_some]
        by_cases hx : x = k
        · simp [hx]
        · have hx2 : ¬ k = x := fun e => hx e.symm
          simp [hx, hx2]

/-! ## The loader -/

theorem tokensOf_none (s r : Str) (h : extractWord s = (none, r)) : tokensOf s = [] := by
  rw [tokensOf]
  split
  · rfl
  · rename_i h2
    rw [h] at h2
    cases h2

theorem tokensOf_some (s w r : Str) (h : extractWord s = (some w, r)) :
    tokensOf s = w :: tokensOf r := by
  rw [tokensOf]
  split
  · rename_i h2
    rw [h] at h2
    cases h2
  · rename_i h2
    rw [h] at h2
    cases h2
    rfl

theorem loadLoop_none (s r : Str) (t : Table) (h : extractWord s = (none, r)) :
    loadLoop s t = t := by
  rw [loadLoop]
  split
  · rfl
  · rename_i h2
    rw [h] at h2
    cases h2

theorem loadLoop_some (s w r : Str) (t : Table) (h : extractWord s = (some w, r)) :
    loadLoop s t = loadLoop r (increment t w) := by
  rw [loadLoop]
  split
  · rename_i h2
    rw [h] at h2
    cases h2
  · rename_i h2
    rw [h] at h2
    cases h2
    rfl

theorem loadLoop_eq_foldl (s : Str) (t : Table) :
    loadLoop s t = (tokensOf s).foldl increment t := by
  induction s, t using loadLoop.induct with
  | case1 s t rest h =>
    rw [loadLoop_none s rest t h, tokensOf_none s rest h]
    rfl
  | case2 s t item rest h ih =>
    rw [loadLoop_some s item rest t h, tokensOf_some s item rest h, ih]
    rfl

theorem ascending_foldl (toks : List Str) (t : Table) (h : Ascending t) :
    Ascending (toks.foldl increment t) := by
  induction toks generalizing t with
  | nil => exact h
  | cons x xs ih => exact ih _ (ascending_increment t x h)

theorem find_foldl (toks : List Str) (k : Str) :
    find (toks.foldl increment []) k =
      if toks.count k = 0 then none else some (wrapInt (toks.count k)) := by
  induction toks using List.reverseRecOn with
  | nil => rfl
  | append_singleton xs x ih =>
    rw [List.foldl_append, List.foldl_cons, List.foldl_nil,
      find_increment _ _ _ (ascending_foldl xs [] List.Pairwise.nil)]
    by_cases hk : k = x
    · subst hk
      rw [ih, if_pos rfl, List.count_append, List.count_singleton_self]
      rw [if_neg (Nat.succ_ne_zero _)]
      by_cases h0 : List.count k xs = 0
      · rw [if_pos h0, h0]
        rfl
      · rw [if_neg h0, Option.getD_some, wrapInt_succ]
        push_cast
        rfl
    · have hc : List.count k (xs ++ [x]) = List.count k xs := by
        rw [List.count_append, List.count_singleton]
        have : ¬ (x == k) = true := by
          intro e
          exact hk (beq_iff_eq.mp e).symm
        rw [if_neg this]
        rfl
      rw [if_neg hk, ih, hc]

theorem mem_keys_foldl (toks : List Str) (k : Str) :
    k ∈ keys (toks.foldl increment []) ↔ k ∈ toks := by
  have h := find_foldl toks k
  by_cases hk : k ∈ toks
  · have hc : toks.count k ≠ 0 := by
      have := List.count_pos_iff.mpr hk
      omega
    rw [if_neg hc] at h
    constructor
    · intro _
      exact hk
    · intro _
      by_contra hn
      rw [(find_eq_none_iff _ _).mpr hn] at h
      cases h
  · have hc : toks.count k = 0 := List.count_eq_zero.mpr hk
    rw [if_pos hc] at h
    constructor
    · intro h2
      exact absurd h2 ((find_eq_none_iff _ _).mp h)
    · intro h2
      exact absurd h2 hk

/-! ## Counts after loading -/

theorem tokensOf_congr (s s1 : Str) (h : extractWord s = extractWord s1) :
    tokensOf s = tokensOf s1 := by
  rcases h1 : extractWord s1 with ⟨o, r⟩
  rw [h1] at h
  cases o with
  | none => rw [tokensOf_none s r h, tokensOf_none s1 r h1]
  | some w => rw [tokensOf_some s w r h, tokensOf_some s1 w r h1]

theorem tokensOf_repeatText (n : Nat) :
    tokensOf (repeatText n ['a', Char.ofNat 10]) = List.replicate n ['a'] := by
  induction n with
  | zero =>
    exact tokensOf_none [] [] rfl
  | succ n ih =>
    have h1 : extractWord (['a', Char.ofNat 10] ++ repeatText n ['a', Char.ofNat 10]) =
        (some ['a'], Char.ofNat 10 :: repeatText n ['a', Char.ofNat 10]) := by
      simp [extractWord, isSpace, List.dropWhile_cons, List.takeWhile_cons]
    have h2 : extractWord (Char.ofNat 10 :: repeatText n ['a', Char.ofNat 10]) =
        extractWord (repeatText n ['a', Char.ofNat 10]) := by
      simp [extractWord, isSpace, List.dropWhile_cons]
    rw [repeatText, tokensOf_some _ _ _ h1, tokensOf_congr _ _ h2, ih]
    rfl

theorem getFrequency_loadLoop (content item : Str) :
    getFrequency (loadLoop content []) item =
      if (tokensOf content).count item = 0 then 0
      else wrapInt ((tokensOf content).count item) := by
  rw [getFrequency, loadLoop_eq_foldl, find_foldl]
  by_cases h : (tokensOf content).count item = 0
  · rw [if_pos h, if_pos h]
  · rw [if_neg h, if_neg h]

/-- C1, as amended: after `loadFromFile` has read a file, `getFrequency(item)` is
the number of times `item` occurs among the words of the file, for every item
that occurs fewer than 2147483648 times. -/
theorem getFrequency_loadFromFile (path : Str) (old : Table) (content item : Str)
    (h : (tokensOf content).count item < 2147483648) :
    loadFromFile path old (some content) = .ok (loadLoop content []) ∧
      getFrequency (loadLoop content []) item = ((tokensOf content).count item : Int) := by
  refine ⟨rfl, ?_⟩
  rw [getFrequency_loadLoop]
  by_cases h0 : (tokensOf content).count item = 0
  · rw [if_pos h0, h0]
    rfl
  · rw [if_neg h0]
    apply wrapInt_of_range <;> omega

theorem getFrequency_loadFromFile_witness :
    (tokensOf "apple banana apple".toList).count "apple".toList < 2147483648 ∧
    (loadFromFile inputPath [] (some "apple banana apple".toList) =
        .ok (loadLoop "apple banana apple".toList []) ∧
      getFrequency (loadLoop "apple banana apple".toList []) "apple".toList =
        ((tokensOf "apple banana apple".toList).count "apple".toList : Int)) :=
  ⟨by simp [tokensOf, extractWord, isSpace],
   getFrequency_loadFromFile inputPath [] "apple banana apple".toList "apple".toList
     (by simp [tokensOf, extractWord, isSpace])⟩

/-- C1 fails as stated: on a file of 2147483648 lines `a` the count of `a` has
wrapped round, and `getFrequency` returns -2147483648, not 2147483648. -/
theorem getFrequency_manyA :
    loadFromFile inputPath [] (some manyA) = .ok (loadLoop manyA []) ∧
      getFrequency (loadLoop manyA []) ['a'] = -2147483648 ∧
      (((tokensOf manyA).count ['a'] : Nat) : Int) = 2147483648 := by
  have hc : (tokensOf manyA).count ['a'] = 2147483648 := by
    rw [manyA, tokensOf_repeatText, List.count_replicate_self]
  refine ⟨rfl, ?_, ?_⟩
  · rw [getFrequency_loadLoop, hc]
    decide
  · rw [hc]
    rfl

/-! ## The sum of the counts -/

theorem totalCount_increment (t : Table) (k : Str) (h : Ascending t) :
    totalCount (increment t k) =
      totalCount t - (find t k).getD 0 + wrapInt ((find t k).getD 0 + 1) := by
  induction t with
  | nil =>
    simp only [increment, find, totalCount, List.map_cons, List.map_nil, List.sum_cons,
      List.sum_nil, Option.getD_none]
    omega
  | cons kv rest ih =>
    obtain ⟨k1, v⟩ := kv
    unfold Ascending at h ih
    rw [List.pairwise_cons] at h
    simp only [increment]
    cases h1 : strLt k k1 with
    | true =>
      have hne : ¬ k1 = k := fun e => ne_of_strLt _ _ h1 e.symm
      have hnone : find rest k = none := by
        apply find_of_lt_all
        intro b hb
        exact strLt_trans _ _ _ h1 (h.1 b hb)
      simp only [↓reduceIte, find, hne, hnone, Option.getD_none, totalCount, List.map_cons,
        List.sum_cons]
      omega
    | false =>
      cases h2 : strLt k1 k with
      | true =>
        have hne : ¬ k1 = k := ne_of_strLt _ _ h2
        have ih2 := ih h.2
        simp only [totalCount] at ih2
        simp only [Bool.false_eq_true, ↓reduceIte, find, hne, totalCount, List.map_cons,
          List.sum_cons, ih2]
        omega
      | false =>
        have hk : k = k1 := strLt_total k k1 h1 h2
        subst hk
        simp only [Bool.false_eq_true, ↓reduceIte, find, Option.getD_some, totalCount,
          List.map_cons, List.sum_cons]
        omega

theorem count_le_count_append (xs : List Str) (x k : Str) :
    xs.count k ≤ (xs ++ [x]).count k := by
  rw [List.count_append]
  exact Nat.le_add_right _ _

theorem totalCount_foldl (toks : List Str) (h : ∀ item, toks.count item < 2147483648) :
    totalCount (toks.foldl increment []) = (toks.length : Int) := by
  induction toks using List.reverseRecOn with
  | nil => rfl
  | append_singleton xs x ih =>
    have hx := h x
    rw [List.count_append, List.count_singleton_self] at hx
    have ih2 := ih (fun item => lt_of_le_of_lt (count_le_count_append xs x item) (h item))
    rw [List.foldl_append, List.foldl_cons, List.foldl_nil,
      totalCount_increment _ _ (ascending_foldl xs [] List.Pairwise.nil), ih2, find_foldl,
      List.length_append, List.length_singleton]
    by_cases h0 : xs.count x = 0
    · rw [if_pos h0]
      simp only [Option.getD_none, wrapInt]
      push_cast
      omega
    · rw [if_neg h0, Option.getD_some, wrapInt_succ]
      rw [wrapInt_of_range (xs.count x) (by omega) (by omega),
        wrapInt_of_range ((xs.count x : Int) + 1) (by omega) (by omega)]
      push_cast
      omega

theorem foldl_increment_replicate (a : Str) (n : Nat) :
    (List.replicate (n + 1) a).foldl increment [] = [(a, wrapInt ((n : Int) + 1))] := by
  induction n with
  | zero => rfl
  | succ n ih =>
    rw [List.replicate_succ', List.foldl_append, ih]
    simp only [List.foldl_cons, List.foldl_nil, increment, strLt_irrefl, Bool.false_eq_true,
      ↓reduceIte, wrapInt_succ]
    push_cast
    rfl

theorem loadLoop_manyA : loadLoop manyA [] = [(['a'], -2147483648)] := by
  rw [loadLoop_eq_foldl, manyA, tokensOf_repeatText]
  exact foldl_increment_replicate ['a'] 2147483647

/-- C2, as amended: after `loadFromFile` has read a file in which no item occurs
2147483648 times or more, the counts of all entries add up to the number of
words of the file. -/
theorem totalCount_loadFromFile (path : Str) (old : Table) (content : Str)
    (h : ∀ item, (tokensOf content).count item < 2147483648) :
    loadFromFile path old (some content) = .ok (loadLoop content []) ∧
      totalCount (loadLoop content []) = ((tokensOf content).length : Int) := by
  refine ⟨rfl, ?_⟩
  rw [loadLoop_eq_foldl]
  exact totalCount_foldl _ h

theorem totalCount_loadFromFile_witness :
    (∀ item, (tokensOf "apple banana apple".toList).count item < 2147483648) ∧
    (loadFromFile inputPath [] (some "apple banana apple".toList) =
        .ok (loadLoop "apple banana apple".toList []) ∧
      totalCount (loadLoop "apple banana apple".toList []) =
        ((tokensOf "apple banana apple".toList).length : Int)) :=
  have hb : ∀ item, (tokensOf "apple banana apple".toList).count item < 2147483648 := by
    intro item
    refine lt_of_le_of_lt (List.count_le_length _ _) ?_
    simp [tokensOf, extractWord, isSpace]
  ⟨hb, totalCount_loadFromFile inputPath [] "apple banana apple".toList hb⟩

/-- C2 fails as stated: the file of 2147483648 lines `a` is not empty and has
2147483648 words, but the only count of the loaded table is -2147483648. -/
theorem totalCount_manyA :
    tokensOf manyA ≠ [] ∧
      loadFromFile inputPath [] (some manyA) = .ok (loadLoop manyA []) ∧
      totalCount (loadLoop manyA []) = -2147483648 ∧
      ((tokensOf manyA).length : Int) = 2147483648 := by
  have ht : tokensOf manyA = List.replicate 2147483648 ['a'] := by
    rw [manyA, tokensOf_repeatText]
  refine ⟨?_, rfl, ?_, ?_⟩
  · rw [ht]
    intro e
    have := congrArg List.length e
    rw [List.length_replicate] at this
    cases this
  · rw [loadLoop_manyA]
    rfl
  · rw [ht, List.length_replicate]
    rfl

/-! ## Queries for absent items -/

theorem menuBody_query (m : Machine) (rest : Str) (h : readInt m.cin = (some 1, rest)) :
    menuBody m = Step.running
      { m with cin := (extractWord rest).2,
               log := m.log ++ menuText ++ queryEvents m.freq_ ((extractWord rest).1.getD []) } := by
  simp only [menuBody, h, if_true]

/-- C3: for an item that is not a key of the table, `getFrequency` returns 0, and
a query for it at the menu prints the count 0 and leaves the machine with the
same table, so the item is in no entry that the list, the histogram or the backup
go through afterwards. -/
theorem getFrequency_absent (t : Table) (item : Str) (h : item ∉ keys t) :
    getFrequency t item = 0 ∧
    (∀ (cin rest rest2 : Str) (log : List Ev),
      readInt cin = (some 1, rest) → extractWord rest = (some item, rest2) →
      menuBody { freq_ := t, cin := cin, log := log } =
        Step.running { freq_ := t, cin := rest2,
                       log := log ++ menuText ++ [Ev.out "Enter item name: ".toList,
                         Ev.out item, Ev.out " ".toList, Ev.out "0".toList,
                         Ev.out "\n".toList] }) ∧
    (∀ kv ∈ t, kv.1 ≠ item) := by
  have h0 : getFrequency t item = 0 := by
    rw [getFrequency, (find_eq_none_iff t item).mpr h]
  refine ⟨h0, ?_, ?_⟩
  · intro cin rest rest2 log h1 h2
    rw [menuBody_query _ rest h1]
    simp only [h2, Option.getD_some, queryEvents, h0]
    rfl
  · intro kv hkv e
    exact h (e ▸ List.mem_map_of_mem Prod.fst hkv)

theorem getFrequency_absent_witness :
    "kiwi".toList ∉ keys [("apple".toList, 3), ("banana".toList, 2)] ∧
    (getFrequency [("apple".toList, 3), ("banana".toList, 2)] "kiwi".toList = 0 ∧
    (∀ (cin rest rest2 : Str) (log : List Ev),
      readInt cin = (some 1, rest) → extractWord rest = (some "kiwi".toList, rest2) →
      menuBody { freq_ := [("apple".toList, 3), ("banana".toList, 2)], cin := cin, log := log } =
        Step.running { freq_ := [("apple".toList, 3), ("banana".toList, 2)], cin := rest2,
                       log := log ++ menuText ++ [Ev.out "Enter item name: ".toList,
                         Ev.out "kiwi".toList, Ev.out " ".toList, Ev.out "0".toList,
                         Ev.out "\n".toList] }) ∧
    (∀ kv ∈ [("apple".toList, (3 : Int)), ("banana".toList, 2)], kv.1 ≠ "kiwi".toList)) :=
  ⟨by decide, getFrequency_absent [("apple".toList, 3), ("banana".toList, 2)] "kiwi".toList
    (by decide)⟩

/-! ## The entries of the loaded table -/

theorem strLt_iff_list_lt (a b : Str) : strLt a b = true ↔ List.lt a b := by
  induction a generalizing b with
  | nil =>
    cases b with
    | nil =>
      simp only [strLt, Bool.false_eq_true, false_iff]
      intro h
      cases h
    | cons y ys =>
      simp only [strLt, true_iff]
      exact List.lt.nil y ys
  | cons x xs ih =>
    cases b with
    | nil =>
      simp only [strLt, Bool.false_eq_true, false_iff]
      intro h
      cases h
    | cons y ys =>
      simp only [strLt]
      by_cases hxy : x < y
      · simp only [hxy, if_true, true_iff]
        exact List.lt.head xs ys hxy
      · by_cases hyx : y < x
        · simp only [hxy, hyx, if_true, if_false, Bool.false_eq_true, false_iff]
          intro h
          cases h with
          | head _ _ h1 => exact hxy h1
          | tail h1 h2 h3 => exact h2 hyx
        · simp only [hxy, hyx, if_false, ih ys]
          constructor
          · intro h
            exact List.lt.tail hxy hyx h
          · intro h
            cases h with
            | head _ _ h1 => exact absurd h1 hxy
            | tail h1 h2 h3 => exact h3

theorem strLt_iff_lt (a b : Str) : strLt a b = true ↔ String.mk a < String.mk b := by
  rw [String.lt_iff_toList_lt, strLt_iff_list_lt, List.lt_iff_lex_lt]
  exact Iff.rfl

theorem nodup_keys_of_ascending (t : Table) (h : Ascending t) : (keys t).Nodup := by
  unfold Ascending at h
  unfold keys
  rw [List.Nodup, List.pairwise_map]
  refine List.Pairwise.imp ?_ h
  intro a b hab
  exact ne_of_strLt a.1 b.1 hab

theorem menuBody_list (m : Machine) (rest : Str) (h : readInt m.cin = (some 2, rest)) :
    menuBody m = Step.running
      { m with cin := rest, log := m.log ++ menuText ++ printAll m.freq_ } := by
  simp only [menuBody, h]
  rfl

theorem menuBody_histogram (m : Machine) (rest : Str) (h : readInt m.cin = (some 3, rest)) :
    menuBody m = Step.running
      { m with cin := rest, log := m.log ++ menuText ++ printHistogram m.freq_ } := by
  simp only [menuBody, h]
  rfl


/-- C4: the entries of the table that `loadFromFile` builds, which `printAll`,
`printHistogram` and `writeBackup` go through in order, are strictly ascending
by item in the order of `std::string`, so no item is repeated; their items are
exactly the words of the file; there is none when the file has no word; and a
listing or a histogram leaves the table as it is, so the next one goes through
the same entries. -/
theorem entries_loadFromFile (path : Str) (old : Table) (content : Str) :
    loadFromFile path old (some content) = .ok (loadLoop content []) ∧
    List.Pairwise (fun a b => String.mk a.1 < String.mk b.1) (loadLoop content []) ∧
    (keys (loadLoop content [])).Nodup ∧
    (∀ item, item ∈ keys (loadLoop content []) ↔ item ∈ tokensOf content) ∧
    (tokensOf content = [] → loadLoop content [] = []) ∧
    (∀ (cin rest : Str) (log : List Ev), readInt cin = (some 2, rest) →
      menuBody { freq_ := loadLoop content [], cin := cin, log := log } =
        Step.running { freq_ := loadLoop content [], cin := rest,
                       log := log ++ menuText ++ printAll (loadLoop content []) }) ∧
    (∀ (cin rest : Str) (log : List Ev), readInt cin = (some 3, rest) →
      menuBody { freq_ := loadLoop content [], cin := cin, log := log } =
        Step.running { freq_ := loadLoop content [], cin := rest,
                       log := log ++ menuText ++ printHistogram (loadLoop content []) }) := by
  have hasc : Ascending (loadLoop content []) := by
    rw [loadLoop_eq_foldl]
    exact ascending_foldl _ _ List.Pairwise.nil
  refine ⟨rfl, ?_, nodup_keys_of_ascending _ hasc, ?_, ?_, ?_, ?_⟩
  · refine List.Pairwise.imp ?_ hasc
    intro a b hab
    exact (strLt_iff_lt a.1 b.1).mp hab
  · intro item
    rw [loadLoop_eq_foldl]
    exact mem_keys_foldl _ item
  · intro h
    rw [loadLoop_eq_foldl, h]
    rfl
  · intro cin rest log h
    exact menuBody_list _ rest h
  · intro cin rest log h
    exact menuBody_histogram _ rest h

/-! ## Decimal numbers written and read back -/

theorem isDigit_digitChar (d : Nat) (h : d < 10) : isDigit (digitChar d) = true := by
  interval_cases d <;> decide

theorem digitVal_digitChar (d : Nat) (h : d < 10) : digitVal (digitChar d) = d := by
  interval_cases d <;> decide

theorem digitsVal_append (xs : Str) (c : Char) :
    digitsVal (xs ++ [c]) = 10 * digitsVal xs + digitVal c := by
  unfold digitsVal
  rw [List.foldl_append]
  rfl

theorem natDigits_spec (f n : Nat) (h : n < f) :
    natDigits f n ≠ [] ∧ (∀ c ∈ natDigits f n, isDigit c = true) ∧
      digitsVal (natDigits f n) = n := by
  induction f generalizing n with
  | zero => omega
  | succ f ih =>
    rw [natDigits]
    by_cases h10 : n < 10
    · rw [if_pos h10]
      refine ⟨List.cons_ne_nil _ _, ?_, ?_⟩
      · intro c hc
        rw [List.mem_singleton] at hc
        rw [hc]
        exact isDigit_digitChar n h10
      · show 10 * 0 + digitVal (digitChar n) = n
        rw [digitVal_digitChar n h10]
        omega
    · rw [if_neg h10]
      have hlt : n / 10 < f := by omega
      obtain ⟨_, h2, h3⟩ := ih (n / 10) hlt
      refine ⟨?_, ?_, ?_⟩
      · intro e
        have := congrArg List.length e
        rw [List.length_append] at this
        simp at this
      · intro c hc
        rcases List.mem_append.mp hc with hc | hc
        · exact h2 c hc
        · rw [List.mem_singleton] at hc
          rw [hc]
          exact isDigit_digitChar _ (Nat.mod_lt _ (by omega))
      · rw [digitsVal_append, h3, digitVal_digitChar _ (Nat.mod_lt _ (by omega))]
        omega

theorem showNat_spec (n : Nat) :
    showNat n ≠ [] ∧ (∀ c ∈ showNat n, isDigit c = true) ∧ digitsVal (showNat n) = n :=
  natDigits_spec (n + 1) n (Nat.lt_succ_self n)

theorem parseNat_showNat (n : Nat) : parseNat (showNat n) = some n := by
  obtain ⟨h1, h2, h3⟩ := showNat_spec n
  rw [parseNat, if_pos ⟨h1, List.all_eq_true.mpr h2⟩, h3]

theorem isDigit_ne_minus (c : Char) (h : isDigit c = true) : c ≠ '-' := by
  intro e
  rw [e] at h
  revert h
  decide

theorem isDigit_ne_plus (c : Char) (h : isDigit c = true) : c ≠ '+' := by
  intro e
  rw [e] at h
  revert h
  decide

theorem isDigit_ne_newline (c : Char) (h : isDigit c = true) : c ≠ Char.ofNat 10 := by
  intro e
  rw [e] at h
  revert h
  decide

theorem isDigit_not_isSpace (c : Char) (h : isDigit c = true) : isSpace c = false := by
  cases hs : isSpace c with
  | false => rfl
  | true =>
    simp only [isSpace, Bool.or_eq_true, beq_iff_eq] at hs
    rcases hs with ((((hs | hs) | hs) | hs) | hs) | hs <;>
    · rw [hs] at h
      revert h
      decide

theorem parseInt_showInt (i : Int) : parseInt (showInt i) = some i := by
  unfold showInt
  by_cases hi : i < 0
  · rw [if_pos hi, parseInt, if_pos rfl, parseNat_showNat]
    show some (-(i.natAbs : Int)) = some i
    congr 1
    omega
  · rw [if_neg hi]
    obtain ⟨h1, h2, _⟩ := showNat_spec i.natAbs
    obtain ⟨c, cs, hcs⟩ := List.exists_cons_of_ne_nil h1
    have hc : c ≠ '-' := isDigit_ne_minus c (h2 c (by rw [hcs]; exact List.mem_cons_self _ _))
    have hp := parseNat_showNat i.natAbs
    rw [hcs] at hp ⊢
    rw [parseInt, if_neg hc, hp]
    show some ((i.natAbs : Int)) = some i
    congr 1
    omega

theorem showInt_no_newline (i : Int) : Char.ofNat 10 ∉ showInt i := by
  obtain ⟨_, h2, _⟩ := showNat_spec i.natAbs
  unfold showInt
  intro hmem
  by_cases hi : i < 0
  · rw [if_pos hi] at hmem
    rcases List.mem_cons.mp hmem with h | h
    · revert h
      decide
    · exact isDigit_ne_newline _ (h2 _ h) rfl
  · rw [if_neg hi] at hmem
    exact isDigit_ne_newline _ (h2 _ hmem) rfl

/-! ## The backup file read back -/

theorem splitLines_line (l rest : Str) (h : Char.ofNat 10 ∉ l) :
    splitLines (l ++ Char.ofNat 10 :: rest) = l :: splitLines rest := by
  induction l with
  | nil =>
    rw [List.nil_append, splitLines, if_pos rfl]
  | cons c cs ih =>
    have hc : c ≠ Char.ofNat 10 := fun e => h (by rw [e]; exact List.mem_cons_self _ _)
    have hcs : Char.ofNat 10 ∉ cs := fun e => h (List.mem_cons_of_mem _ e)
    rw [List.cons_append, splitLines, if_neg hc, ih hcs]

theorem takeWhile_ne_space (k rest : Str) (h : ' ' ∉ k) :
    (k ++ ' ' :: rest).takeWhile (fun c => c != ' ') = k := by
  induction k with
  | nil => rfl
  | cons c cs ih =>
    have hc : c ≠ ' ' := fun e => h (by rw [e]; exact List.mem_cons_self _ _)
    have hcs : ' ' ∉ cs := fun e => h (List.mem_cons_of_mem _ e)
    have hb : (c != ' ') = true := bne_iff_ne.mpr hc
    rw [List.cons_append, List.takeWhile_cons, hb, ih hcs]
    rfl

theorem dropWhile_ne_space (k rest : Str) (h : ' ' ∉ k) :
    (k ++ ' ' :: rest).dropWhile (fun c => c != ' ') = ' ' :: rest := by
  induction k with
  | nil => rfl
  | cons c cs ih =>
    have hc : c ≠ ' ' := fun e => h (by rw [e]; exact List.mem_cons_self _ _)
    have hcs : ' ' ∉ cs := fun e => h (List.mem_cons_of_mem _ e)
    have hb : (c != ' ') = true := bne_iff_ne.mpr hc
    rw [List.cons_append, List.dropWhile_cons, hb, ih hcs]
    rfl

theorem parseLine_entry (k : Str) (v : Int) (h : ' ' ∉ k) :
    parseLine (k ++ ' ' :: showInt v) = some (k, v) := by
  rw [parseLine, dropWhile_ne_space k _ h, takeWhile_ne_space k _ h]
  simp only [parseInt_showInt, Option.map_some']

theorem parseBackup_backupText (t : Table) (h : SolidKeys t) :
    parseBackup (backupText t) = some t := by
  induction t with
  | nil => rfl
  | cons kv rest ih =>
    obtain ⟨k, v⟩ := kv
    have hk : ∀ c ∈ k, isSpace c = false := h k (List.mem_cons_self _ _)
    have hrest : SolidKeys rest := fun k1 hk1 => h k1 (List.mem_cons_of_mem _ hk1)
    have hsp : ' ' ∉ k := fun e => by
      have := hk _ e
      revert this
      decide
    have hnl : Char.ofNat 10 ∉ k := fun e => by
      have := hk _ e
      revert this
      decide
    have hline : Char.ofNat 10 ∉ k ++ ' ' :: showInt v := by
      intro e
      rcases List.mem_append.mp e with e | e
      · exact hnl e
      · rcases List.mem_cons.mp e with e | e
        · revert e
          decide
        · exact showInt_no_newline v e
    have htext : backupText ((k, v) :: rest) =
        (k ++ ' ' :: showInt v) ++ Char.ofNat 10 :: backupText rest := by
      simp only [backupText, backupLine, List.append_assoc]
      rfl
    have ih2 := ih hrest
    unfold parseBackup at ih2 ⊢
    rw [htext, splitLines_line _ _ hline, parseLines, parseLine_entry k v hsp, ih2]

theorem solid_of_extractWord (s w r : Str) (h : extractWord s = (some w, r)) :
    w ≠ [] ∧ ∀ c ∈ w, isSpace c = false := by
  simp only [extractWord] at h
  split at h
  · cases h
  · rename_i hw
    simp only [Prod.mk.injEq, Option.some.injEq] at h
    rw [← h.1]
    refine ⟨hw, ?_⟩
    intro c hc
    have := List.mem_takeWhile_imp hc
    simpa using this

theorem solid_tokensOf (s : Str) : ∀ w ∈ tokensOf s, w ≠ [] ∧ ∀ c ∈ w, isSpace c = false := by
  induction s using tokensOf.induct with
  | case1 s r h =>
    rw [tokensOf_none s r h]
    intro w hw
    cases hw
  | case2 s w r h ih =>
    rw [tokensOf_some s w r h]
    intro w1 hw1
    rcases List.mem_cons.mp hw1 with e | e
    · rw [e]
      exact solid_of_extractWord s w r h
    · exact ih w1 e

theorem solidKeys_loadLoop (content : Str) : SolidKeys (loadLoop content []) := by
  intro k hk
  rw [loadLoop_eq_foldl, mem_keys_foldl] at hk
  exact (solid_tokensOf content k hk).2

/-- C5: when the table `loadFromFile` has built is written by `writeBackup`, and
the text written is split into lines and each line into an item and an integer,
the result is the sequence of entries of the table, in the same order. -/
theorem parseBackup_writeBackup (path out : Str) (old : Table) (content : Str) :
    loadFromFile path old (some content) = .ok (loadLoop content []) ∧
    writeBackup (loadLoop content []) true out = .ok (backupText (loadLoop content [])) ∧
    parseBackup (backupText (loadLoop content [])) = some (loadLoop content []) :=
  ⟨rfl, rfl, parseBackup_backupText _ (solidKeys_loadLoop content)⟩

/-! ## The colour bands of the histogram -/

theorem colorsOf_stars (count : Int) : colorsOf (stars count) = [] := by
  unfold stars
  induction count.toNat with
  | zero => rfl
  | succ n ih =>
    rw [List.replicate_succ]
    exact ih

theorem colorsOf_append (a b : List Ev) : colorsOf (a ++ b) = colorsOf a ++ colorsOf b := by
  induction a with
  | nil => rfl
  | cons e rest ih =>
    cases e with
    | out s => exact ih
    | err s => exact ih
    | color c =>
      show c :: colorsOf (rest ++ b) = c :: colorsOf rest ++ colorsOf b
      rw [ih]
      rfl

/-- C6: the colour `printHistogram` sets for the bar of an entry depends on the
count alone: the colours set in the line of an entry are the colour of its count
and the reset to 7, whatever the item. The colour is 12 exactly for the counts up
to 3 (so for 1 to 3), 6 exactly for 4 to 6, 14 exactly for 7 to 9 and 10 exactly
for 10 and more; 3 gets 12 and 4 gets 6, 6 gets 6 and 7 gets 14, 9 gets 14 and 10
gets 10. -/
theorem histColor_bands (item : Str) (count : Int) :
    colorsOf (histLine (item, count)) = [histColor count, 7] ∧
    (count ≤ 3 ↔ histColor count = 12) ∧
    (4 ≤ count ∧ count ≤ 6 ↔ histColor count = 6) ∧
    (7 ≤ count ∧ count ≤ 9 ↔ histColor count = 14) ∧
    (10 ≤ count ↔ histColor count = 10) ∧
    histColor 3 = 12 ∧ histColor 4 = 6 ∧ histColor 6 = 6 ∧ histColor 7 = 14 ∧
    histColor 9 = 14 ∧ histColor 10 = 10 := by
  refine ⟨?_, ?_, ?_, ?_, ?_, rfl, rfl, rfl, rfl, rfl, rfl⟩
  · unfold histLine
    rw [colorsOf_append, colorsOf_append, colorsOf_stars]
    rfl
  all_goals
    unfold histColor
    split_ifs <;> omega

/-! ## The bars of the histogram -/

theorem outText_append (a b : List Ev) : outText (a ++ b) = outText a ++ outText b := by
  induction a with
  | nil => rfl
  | cons e rest ih =>
    cases e with
    | out s =>
      show s ++ outText (rest ++ b) = s ++ outText rest ++ outText b
      rw [ih, List.append_assoc]
    | err s => exact ih
    | color c => exact ih

theorem outText_replicate_star (n : Nat) :
    outText (List.replicate n (Ev.out "*".toList)) = List.replicate n '*' := by
  induction n with
  | zero => rfl
  | succ n ih =>
    rw [List.replicate_succ, List.replicate_succ]
    show ['*'] ++ outText (List.replicate n (Ev.out "*".toList)) = _
    rw [ih]
    rfl

theorem outText_histLine (kv : Str × Int) :
    outText (histLine kv) = barLine kv.1 kv.2.toNat := by
  have h1 : outText [Ev.out kv.1, Ev.out " ".toList, setColor (histColor kv.2)] =
      kv.1 ++ [' '] := rfl
  have h2 : outText [setColor 7, Ev.out "\n".toList] = [Char.ofNat 10] := rfl
  unfold histLine barLine stars
  rw [outText_append, outText_append, h1, h2, outText_replicate_star, List.append_assoc,
    List.append_assoc]
  rfl

theorem outText_histLines (t : Table) :
    outText (histLines t) = (t.map (fun kv => barLine kv.1 kv.2.toNat)).flatten := by
  induction t with
  | nil => rfl
  | cons kv rest ih =>
    rw [histLines, outText_append, ih, outText_histLine]
    rfl

theorem find_of_mem (t : Table) (k : Str) (v : Int) (h : Ascending t) (hm : (k, v) ∈ t) :
    find t k = some v := by
  induction t with
  | nil => cases hm
  | cons kv rest ih =>
    obtain ⟨k1, v1⟩ := kv
    unfold Ascending at h ih
    rw [List.pairwise_cons] at h
    rcases List.mem_cons.mp hm with e | e
    · injection e with e1 e2
      rw [find, if_pos e1.symm, e2]
    · have hne : ¬ k1 = k := ne_of_strLt _ _ (h.1 (k, v) e)
      rw [find, if_neg hne]
      exact ih h.2 e

theorem count_of_mem_loadLoop (content : Str) (k : Str) (v : Int)
    (hm : (k, v) ∈ loadLoop content []) :
    (tokensOf content).count k ≠ 0 ∧ v = wrapInt ((tokensOf content).count k) := by
  have hasc : Ascending (loadLoop content []) := by
    rw [loadLoop_eq_foldl]
    exact ascending_foldl _ _ List.Pairwise.nil
  have hf := find_of_mem _ k v hasc hm
  rw [loadLoop_eq_foldl, find_foldl] at hf
  by_cases h0 : (tokensOf content).count k = 0
  · rw [if_pos h0] at hf
    cases hf
  · rw [if_neg h0] at hf
    injection hf with hf
    exact ⟨h0, hf.symm⟩

theorem one_le_of_mem_loadLoop (content : Str)
    (h : ∀ item, (tokensOf content).count item < 2147483648) (kv : Str × Int)
    (hm : kv ∈ loadLoop content []) : 1 ≤ kv.2 := by
  obtain ⟨h0, hv⟩ := count_of_mem_loadLoop content kv.1 kv.2 hm
  have hb := h kv.1
  rw [hv, wrapInt_of_range _ (by omega) (by omega)]
  omega

theorem mem_loadLoop_manyA : ((['a'], -2147483648) : Str × Int) ∈ loadLoop manyA [] := by
  rw [loadLoop_manyA]
  exact List.mem_singleton.mpr rfl

/-- C7, as amended: for the table `loadFromFile` builds from a file in which no
item occurs 2147483648 times or more, the text `printHistogram` writes for an
entry is the item, a space, a bar of asterisks and a line end, the number of
asterisks being the count of the entry; the histogram is the heading followed by
these lines, one per entry in the order of the table, which is ascending by
item. -/
theorem printHistogram_loadFromFile (path : Str) (old : Table) (content : Str)
    (h : ∀ item, (tokensOf content).count item < 2147483648) :
    loadFromFile path old (some content) = .ok (loadLoop content []) ∧
    (∀ kv ∈ loadLoop content [],
      outText (histLine kv) = barLine kv.1 kv.2.toNat ∧ (kv.2.toNat : Int) = kv.2) ∧
    (loadLoop content [] ≠ [] →
      outText (printHistogram (loadLoop content [])) =
        "\n=== Purchase Histogram ===\n".toList ++
          ((loadLoop content []).map (fun kv => barLine kv.1 kv.2.toNat)).flatten) ∧
    Ascending (loadLoop content []) := by
  refine ⟨rfl, ?_, ?_, ?_⟩
  · intro kv hm
    refine ⟨outText_histLine kv, ?_⟩
    have := one_le_of_mem_loadLoop content h kv hm
    omega
  · intro hne
    unfold printHistogram
    have he : (loadLoop content []).isEmpty = false := by
      cases hl : loadLoop content [] with
      | nil => exact absurd hl hne
      | cons a b => rfl
    rw [he]
    show _ ++ outText (histLines (loadLoop content [])) = _
    rw [outText_histLines]
  · rw [loadLoop_eq_foldl]
    exact ascending_foldl _ _ List.Pairwise.nil

theorem printHistogram_loadFromFile_witness :
    (∀ item, (tokensOf "apple banana apple".toList).count item < 2147483648) ∧
    (loadFromFile inputPath [] (some "apple banana apple".toList) =
      .ok (loadLoop "apple banana apple".toList []) ∧
    (∀ kv ∈ loadLoop "apple banana apple".toList [],
      outText (histLine kv) = barLine kv.1 kv.2.toNat ∧ (kv.2.toNat : Int) = kv.2) ∧
    (loadLoop "apple banana apple".toList [] ≠ [] →
      outText (printHistogram (loadLoop "apple banana apple".toList [])) =
        "\n=== Purchase Histogram ===\n".toList ++
          ((loadLoop "apple banana apple".toList []).map
            (fun kv => barLine kv.1 kv.2.toNat)).flatten) ∧
    Ascending (loadLoop "apple banana apple".toList [])) :=
  have hb : ∀ item, (tokensOf "apple banana apple".toList).count item < 2147483648 := by
    intro item
    refine lt_of_le_of_lt (List.count_le_length _ _) ?_
    simp [tokensOf, extractWord, isSpace]
  ⟨hb, printHistogram_loadFromFile inputPath [] "apple banana apple".toList hb⟩

/-- C7 fails as stated: the table loaded from the file of 2147483648 lines `a`
has the entry of `a` with count -2147483648, and the histogram line of that entry
is the item, a space and a line end, with no asterisk. -/
theorem printHistogram_manyA :
    loadFromFile inputPath [] (some manyA) = .ok (loadLoop manyA []) ∧
    ((['a'], -2147483648) : Str × Int) ∈ loadLoop manyA [] ∧
    outText (histLine (['a'], -2147483648)) = ['a', ' ', Char.ofNat 10] ∧
    (((outText (histLine (['a'], -2147483648))).count '*' : Nat) : Int) ≠ -2147483648 := by
  refine ⟨rfl, mem_loadLoop_manyA, ?_, ?_⟩ <;> decide

/-! ## Failure to open the input, and the counts staying positive -/

theorem menuBody_freq (m : Machine) : (menuBody m).machine.freq_ = m.freq_ := by
  unfold menuBody
  split
  · rfl
  · split_ifs <;> rfl

theorem runSteps_freq (n : Nat) (m : Machine) : (runSteps n m).freq_ = m.freq_ := by
  induction n generalizing m with
  | zero => rfl
  | succ n ih =>
    have h := menuBody_freq m
    rw [runSteps]
    cases hb : menuBody m with
    | running m1 =>
      rw [hb] at h
      show (runSteps n m1).freq_ = m.freq_
      rw [ih m1]
      exact h
    | terminated m1 =>
      rw [hb] at h
      exact h

/-- C9: when the input file cannot be opened, `loadFromFile` throws, and `main`
returns 1 whatever the standard input holds and however long the session might
run: the backup file is never opened, no input is read and nothing is written to
standard output; the one line on the error stream is the diagnostic. -/
theorem main_source_unavailable (sinkOk : Bool) (stdin : Str) (fuel : Nat) :
    loadFromFile inputPath [] none =
      .error "Failed to open input file: CS210_Project_Three_Input_File.txt".toList ∧
    main none sinkOk stdin fuel =
      some { exitCode := 1, backup := none, cin := stdin,
             log := [setColor 12, Ev.err "Fatal error: ".toList,
               Ev.err "Failed to open input file: CS210_Project_Three_Input_File.txt".toList,
               Ev.err "\n".toList, setColor 7] } ∧
    (1 : Int) ≠ 0 ∧
    outText (fatal "Failed to open input file: CS210_Project_Three_Input_File.txt".toList) = [] ∧
    errText (fatal "Failed to open input file: CS210_Project_Three_Input_File.txt".toList) =
      "Fatal error: Failed to open input file: CS210_Project_Three_Input_File.txt\n".toList ∧
    splitLines (errText
        (fatal "Failed to open input file: CS210_Project_Three_Input_File.txt".toList)) =
      ["Fatal error: Failed to open input file: CS210_Project_Three_Input_File.txt".toList] := by
  have h : loadFromFile inputPath [] none =
      .error "Failed to open input file: CS210_Project_Three_Input_File.txt".toList :=
    congrArg Except.error (by decide)
  refine ⟨h, ?_, by decide, by decide, by decide, by decide⟩
  unfold main
  rw [h]
  rfl

/-- C10, as amended: in the table `loadFromFile` builds from a file in which no
item occurs 2147483648 times or more, every entry has a count of at least 1; and
whatever the input, any number of iterations of the menu loop (queries, for
present or absent items, lists, histograms, invalid selections) leaves the table
as it was, so this stays true. -/
theorem counts_positive (path : Str) (old : Table) (content : Str)
    (h : ∀ item, (tokensOf content).count item < 2147483648) :
    loadFromFile path old (some content) = .ok (loadLoop content []) ∧
    (∀ kv ∈ loadLoop content [], 1 ≤ kv.2) ∧
    ∀ (n : Nat) (cin : Str) (log : List Ev),
      (runSteps n { freq_ := loadLoop content [], cin := cin, log := log }).freq_ =
        loadLoop content [] ∧
      ∀ kv ∈ (runSteps n { freq_ := loadLoop content [], cin := cin, log := log }).freq_,
        1 ≤ kv.2 := by
  refine ⟨rfl, one_le_of_mem_loadLoop content h, ?_⟩
  intro n cin log
  refine ⟨runSteps_freq n _, ?_⟩
  rw [runSteps_freq n _]
  exact one_le_of_mem_loadLoop content h

theorem counts_positive_witness :
    (∀ item, (tokensOf "apple banana apple".toList).count item < 2147483648) ∧
    (loadFromFile inputPath [] (some "apple banana apple".toList) =
      .ok (loadLoop "apple banana apple".toList []) ∧
    (∀ kv ∈ loadLoop "apple banana apple".toList [], 1 ≤ kv.2) ∧
    ∀ (n : Nat) (cin : Str) (log : List Ev),
      (runSteps n { freq_ := loadLoop "apple banana apple".toList [], cin := cin,
                    log := log }).freq_ = loadLoop "apple banana apple".toList [] ∧
      ∀ kv ∈ (runSteps n { freq_ := loadLoop "apple banana apple".toList [], cin := cin,
                           log := log }).freq_, 1 ≤ kv.2) :=
  have hb : ∀ item, (tokensOf "apple banana apple".toList).count item < 2147483648 := by
    intro item
    refine lt_of_le_of_lt (List.count_le_length _ _) ?_
    simp [tokensOf, extractWord, isSpace]
  ⟨hb, counts_positive inputPath [] "apple banana apple".toList hb⟩

/-- C10 fails as stated: the table loaded from the file of 2147483648 lines `a`
has the key `a` with the count -2147483648, which is below 1. -/
theorem counts_manyA :
    loadFromFile inputPath [] (some manyA) = .ok (loadLoop manyA []) ∧
    ((['a'], -2147483648) : Str × Int) ∈ loadLoop manyA [] ∧
    ¬ (1 : Int) ≤ ((['a'], -2147483648) : Str × Int).2 := by
  refine ⟨rfl, mem_loadLoop_manyA, ?_⟩
  decide

/-! ## Numbers read from the input -/

theorem dropWhile_append_stop (p : Char → Bool) (w : Str) (x : Char) (l : Str)
    (hw : ∀ c ∈ w, p c = true) (hx : p x = false) :
    (w ++ x :: l).dropWhile p = x :: l := by
  induction w with
  | nil => rw [List.nil_append, List.dropWhile_cons, hx]; rfl
  | cons c cs ih =>
    rw [List.cons_append, List.dropWhile_cons, hw c (List.mem_cons_self _ _)]
    exact ih (fun d hd => hw d (List.mem_cons_of_mem _ hd))

theorem takeWhile_append_stop (p : Char → Bool) (w : Str) (x : Char) (l : Str)
    (hw : ∀ c ∈ w, p c = true) (hx : p x = false) :
    (w ++ x :: l).takeWhile p = w := by
  induction w with
  | nil => rw [List.nil_append, List.takeWhile_cons, hx]; rfl
  | cons c cs ih =>
    rw [List.cons_append, List.takeWhile_cons, hw c (List.mem_cons_self _ _)]
    show c :: _ = c :: cs
    rw [ih (fun d hd => hw d (List.mem_cons_of_mem _ hd))]

theorem showInt_cons (i : Int) :
    ∃ c cs, showInt i = c :: cs ∧ isSpace c = false := by
  obtain ⟨h1, h2, _⟩ := showNat_spec i.natAbs
  unfold showInt
  by_cases hi : i < 0
  · rw [if_pos hi]
    exact ⟨'-', _, rfl, by decide⟩
  · rw [if_neg hi]
    obtain ⟨c, cs, hcs⟩ := List.exists_cons_of_ne_nil h1
    refine ⟨c, cs, hcs, ?_⟩
    exact isDigit_not_isSpace c (h2 c (by rw [hcs]; exact List.mem_cons_self _ _))

theorem readSign_showInt (i : Int) (tail : Str) :
    readSign (showInt i ++ tail) = (decide (i < 0), showNat i.natAbs ++ tail) := by
  obtain ⟨h1, h2, _⟩ := showNat_spec i.natAbs
  unfold showInt
  by_cases hi : i < 0
  · rw [if_pos hi, List.cons_append, readSign, if_pos rfl, decide_eq_true hi]
  · rw [if_neg hi, decide_eq_false hi]
    obtain ⟨c, cs, hcs⟩ := List.exists_cons_of_ne_nil h1
    have hd : isDigit c = true := h2 c (by rw [hcs]; exact List.mem_cons_self _ _)
    rw [hcs, List.cons_append, readSign, if_neg (isDigit_ne_minus c hd),
      if_neg (isDigit_ne_plus c hd)]

theorem readInt_showInt (w : Str) (i : Int) (tail : Str) (hw : ∀ c ∈ w, isSpace c = true) :
    readInt (w ++ showInt i ++ Char.ofNat 10 :: tail) =
      (if INT_MIN ≤ i ∧ i ≤ INT_MAX then some i else none, Char.ofNat 10 :: tail) := by
  obtain ⟨h1, h2, h3⟩ := showNat_spec i.natAbs
  obtain ⟨c, cs, hcs, hc⟩ := showInt_cons i
  have hdrop : (w ++ showInt i ++ Char.ofNat 10 :: tail).dropWhile isSpace =
      showInt i ++ Char.ofNat 10 :: tail := by
    rw [List.append_assoc, hcs, List.cons_append]
    exact dropWhile_append_stop isSpace w c _ hw hc
  have htake : (showNat i.natAbs ++ Char.ofNat 10 :: tail).takeWhile isDigit =
      showNat i.natAbs := takeWhile_append_stop isDigit _ _ _ h2 (by decide)
  have hrest : (showNat i.natAbs ++ Char.ofNat 10 :: tail).dropWhile isDigit =
      Char.ofNat 10 :: tail := dropWhile_append_stop isDigit _ _ _ h2 (by decide)
  have hv : (if decide (i < 0) = true then -((i.natAbs : Nat) : Int) else ((i.natAbs : Nat) : Int))
      = i := by
    by_cases hi : i < 0
    · rw [if_pos (decide_eq_true hi)]
      omega
    · rw [if_neg (by simpa using hi)]
      omega
  unfold readInt
  simp only [hdrop, readSign_showInt, htake, hrest, if_neg h1, h3, hv]
  split_ifs <;> rfl

/-! ## The session up to the first exit -/

theorem extractWord_word (w q : Str) (tail : Str) (hw : ∀ c ∈ w, isSpace c = true)
    (hq : IsWord q) :
    extractWord (w ++ q ++ Char.ofNat 10 :: tail) = (some q, Char.ofNat 10 :: tail) := by
  obtain ⟨hne, hsolid⟩ := hq
  obtain ⟨c, cs, hcs⟩ := List.exists_cons_of_ne_nil hne
  have hc : isSpace c = false := hsolid c (by rw [hcs]; exact List.mem_cons_self _ _)
  have hdrop : (w ++ q ++ Char.ofNat 10 :: tail).dropWhile isSpace =
      q ++ Char.ofNat 10 :: tail := by
    rw [List.append_assoc, hcs, List.cons_append]
    exact dropWhile_append_stop isSpace w c _ hw hc
  have hsolid2 : ∀ d ∈ q, (fun c => !isSpace c) d = true := by
    intro d hd
    show (!isSpace d) = true
    rw [hsolid d hd]
    rfl
  have htake : (q ++ Char.ofNat 10 :: tail).takeWhile (fun c => !isSpace c) = q :=
    takeWhile_append_stop _ q _ _ hsolid2 (by decide)
  have hrest : (q ++ Char.ofNat 10 :: tail).dropWhile (fun c => !isSpace c) =
      Char.ofNat 10 :: tail :=
    dropWhile_append_stop _ q _ _ hsolid2 (by decide)
  unfold extractWord
  simp only [hdrop, htake, hrest, if_neg hne]

theorem ignoreLine_newline (tail : Str) : ignoreLine (Char.ofNat 10 :: tail) = tail := by
  rw [ignoreLine, if_pos rfl]

theorem residue_space (s : Selection) : ∀ c ∈ residue s, isSpace c = true := by
  intro c hc
  unfold residue at hc
  split_ifs at hc
  · rw [List.mem_singleton] at hc
    rw [hc]
    decide
  · cases hc

theorem menuBody_selection (t : Table) (w : Str) (s : Selection) (tail : Str) (log : List Ev)
    (hw : ∀ c ∈ w, isSpace c = true) (hq : s.option = 1 → IsWord s.query)
    (h4 : s.option ≠ 4) :
    menuBody { freq_ := t, cin := w ++ (s.text ++ tail), log := log } =
      Step.running { freq_ := t, cin := residue s ++ tail,
                     log := log ++ menuText ++ response t s } := by
  have hcin : w ++ (s.text ++ tail) =
      w ++ showInt s.option ++ Char.ofNat 10 ::
        ((if s.option = 1 then s.query ++ [Char.ofNat 10] else []) ++ tail) := by
    unfold Selection.text
    simp only [List.append_assoc, List.cons_append]
  have hr := readInt_showInt w s.option
    ((if s.option = 1 then s.query ++ [Char.ofNat 10] else []) ++ tail) hw
  unfold menuBody
  simp only [hcin, hr]
  by_cases hfit : s.fits
  · have hfit2 : INT_MIN ≤ s.option ∧ s.option ≤ INT_MAX := hfit
    have hres : residue s ++ tail = Char.ofNat 10 :: tail := by
      rw [residue, if_pos hfit]
      rfl
    rw [if_pos hfit2, hres]
    simp only
    by_cases h1 : s.option = 1
    · have hword := extractWord_word [Char.ofNat 10] s.query tail
        (by intro c hc; rw [List.mem_singleton] at hc; rw [hc]; decide) (hq h1)
      have hform : Char.ofNat 10 :: ((s.query ++ [Char.ofNat 10]) ++ tail) =
          [Char.ofNat 10] ++ s.query ++ Char.ofNat 10 :: tail := by
        simp only [List.append_assoc, List.cons_append, List.nil_append]
      have hresp : response t s = queryEvents t s.query := by
        rw [response, if_neg (not_not_intro hfit), if_pos h1]
      rw [if_pos h1, if_pos h1, hform, hword, hresp]
      rfl
    · by_cases h2 : s.option = 2
      · have hresp : response t s = printAll t := by
          rw [response, if_neg (not_not_intro hfit), if_neg h1, if_pos h2]
        rw [if_neg h1, if_neg h1, if_pos h2, hresp]
        rfl
      · by_cases h3 : s.option = 3
        · have hresp : response t s = printHistogram t := by
            rw [response, if_neg (not_not_intro hfit), if_neg h1, if_neg h2, if_pos h3]
          rw [if_neg h1, if_neg h1, if_neg h2, if_pos h3, hresp]
          rfl
        · have hresp : response t s = [invalidOption] := by
            rw [response, if_neg (not_not_intro hfit), if_neg h1, if_neg h2, if_neg h3,
              if_neg h4]
          rw [if_neg h1, if_neg h1, if_neg h2, if_neg h3, if_neg h4, hresp]
          rfl
  · have hfit2 : ¬ (INT_MIN ≤ s.option ∧ s.option ≤ INT_MAX) := hfit
    have h1 : ¬ s.option = 1 := by
      intro e
      apply hfit2
      rw [e]
      decide
    have hres : residue s ++ tail = tail := by
      rw [residue, if_neg hfit]
      rfl
    have hresp : response t s = [invalidInput] := by
      rw [response, if_pos hfit]
    rw [if_neg hfit2, hres, hresp, if_neg h1]
    simp only [List.nil_append, ignoreLine_newline]

theorem menuBody_exit (t : Table) (w : Str) (rest : Str) (log : List Ev)
    (hw : ∀ c ∈ w, isSpace c = true) :
    menuBody { freq_ := t, cin := w ++ ('4' :: Char.ofNat 10 :: rest), log := log } =
      Step.terminated { freq_ := t, cin := Char.ofNat 10 :: rest,
                        log := log ++ menuText ++ goodbye } := by
  have hr := readInt_showInt w 4 rest hw
  have hcin : w ++ ('4' :: Char.ofNat 10 :: rest) = w ++ showInt 4 ++ Char.ofNat 10 :: rest := by
    rw [List.append_assoc]
    rfl
  have hfit : INT_MIN ≤ (4 : Int) ∧ (4 : Int) ≤ INT_MAX := by decide
  rw [if_pos hfit] at hr
  unfold menuBody
  simp only [hcin, hr]
  rfl

theorem runMenu_feed (t : Table) (pre : List Selection) (rest : Str)
    (hq : ∀ s ∈ pre, s.option = 1 → IsWord s.query) (h4 : ∀ s ∈ pre, s.option ≠ 4) :
    ∀ (w : Str) (log : List Ev) (extra : Nat), (∀ c ∈ w, isSpace c = true) →
      runMenu (pre.length + 1 + extra)
          { freq_ := t, cin := w ++ (feed pre ++ '4' :: Char.ofNat 10 :: rest), log := log } =
        some { freq_ := t, cin := Char.ofNat 10 :: rest,
               log := log ++ transcript t pre ++ menuText ++ goodbye } := by
  induction pre with
  | nil =>
    intro w log extra hw
    have hn : ([] : List Selection).length + 1 + extra = extra + 1 := by
      simp only [List.length_nil]
      omega
    rw [hn, runMenu]
    show (match menuBody { freq_ := t, cin := w ++ ('4' :: Char.ofNat 10 :: rest), log := log } with
      | .terminated m1 => some m1
      | .running m1 => runMenu extra m1) = _
    rw [menuBody_exit t w rest log hw]
    simp only [transcript, List.append_nil]
  | cons s ss ih =>
    intro w log extra hw
    have hs := menuBody_selection t w s (feed ss ++ '4' :: Char.ofNat 10 :: rest) log hw
      (hq s (List.mem_cons_self _ _)) (h4 s (List.mem_cons_self _ _))
    have hcin : w ++ (feed (s :: ss) ++ '4' :: Char.ofNat 10 :: rest) =
        w ++ (s.text ++ (feed ss ++ '4' :: Char.ofNat 10 :: rest)) := by
      rw [feed, List.append_assoc]
    have hn : (s :: ss).length + 1 + extra = (ss.length + 1 + extra) + 1 := by
      simp only [List.length_cons]
      omega
    rw [hn, runMenu, hcin, hs]
    simp only
    rw [ih (fun x hx => hq x (List.mem_cons_of_mem _ hx))
      (fun x hx => h4 x (List.mem_cons_of_mem _ hx)) (residue s) _ extra (residue_space s)]
    simp only [transcript, List.append_assoc]

theorem runMenu_feed_none (t : Table) (pre : List Selection) (rest : Str)
    (hq : ∀ s ∈ pre, s.option = 1 → IsWord s.query) (h4 : ∀ s ∈ pre, s.option ≠ 4) :
    ∀ (w : Str) (log : List Ev) (n : Nat), (∀ c ∈ w, isSpace c = true) → n ≤ pre.length →
      runMenu n
          { freq_ := t, cin := w ++ (feed pre ++ '4' :: Char.ofNat 10 :: rest), log := log } =
        none := by
  induction pre with
  | nil =>
    intro w log n hw hn
    have : n = 0 := by simpa using hn
    rw [this]
    rfl
  | cons s ss ih =>
    intro w log n hw hn
    cases n with
    | zero => rfl
    | succ k =>
      have hs := menuBody_selection t w s (feed ss ++ '4' :: Char.ofNat 10 :: rest) log hw
        (hq s (List.mem_cons_self _ _)) (h4 s (List.mem_cons_self _ _))
      have hcin : w ++ (feed (s :: ss) ++ '4' :: Char.ofNat 10 :: rest) =
          w ++ (s.text ++ (feed ss ++ '4' :: Char.ofNat 10 :: rest)) := by
        rw [feed, List.append_assoc]
      rw [runMenu, hcin, hs]
      simp only
      exact ih (fun x hx => hq x (List.mem_cons_of_mem _ hx))
        (fun x hx => h4 x (List.mem_cons_of_mem _ hx)) (residue s) _ k (residue_space s)
        (by simpa using hn)

/-! ## The end of the session -/

/-- C8: let the selections typed before the first 4 be any numbers other than 4,
each 1 followed by the item asked for. Then `runMenu` ends in the iteration that
reads that 4: any bound above the number of earlier selections gives the final
state, any smaller bound gives none. The input is read up to that 4 and no
further, the table is unchanged, and the console shows, for each earlier
selection in turn, the menu and the response to it, which for a number outside 1
to 4 is one invalid-selection message. On the input 5 then 4, `main` prints the
menu, the message, the menu again and the farewell, and returns 0. -/
theorem runMenu_ends_at_first_exit (t : Table) (pre : List Selection) (rest content : Str)
    (hq : ∀ s ∈ pre, s.option = 1 → IsWord s.query) (h4 : ∀ s ∈ pre, s.option ≠ 4) :
    (∀ fuel, pre.length < fuel →
      runMenu fuel { freq_ := t, cin := feed pre ++ '4' :: Char.ofNat 10 :: rest, log := [] } =
        some { freq_ := t, cin := Char.ofNat 10 :: rest,
               log := transcript t pre ++ menuText ++ goodbye }) ∧
    (∀ fuel, fuel ≤ pre.length →
      runMenu fuel { freq_ := t, cin := feed pre ++ '4' :: Char.ofNat 10 :: rest, log := [] } =
        none) ∧
    (∀ s ∈ pre, s.option < 1 ∨ 4 < s.option →
      response t s = [invalidOption] ∨ response t s = [invalidInput]) ∧
    (∀ fuel, 2 ≤ fuel →
      main (some content) true "5\n4\n".toList fuel =
        some { exitCode := 0, backup := some (backupText (loadLoop content [])),
               cin := "\n".toList,
               log := menuText ++ [invalidOption] ++ menuText ++ goodbye }) := by
  refine ⟨?_, ?_, ?_, ?_⟩
  · intro fuel hfuel
    obtain ⟨extra, rfl⟩ : ∃ extra, fuel = pre.length + 1 + extra := ⟨fuel - (pre.length + 1), by omega⟩
    have h := runMenu_feed t pre rest hq h4 [] [] extra (fun c hc => by cases hc)
    simpa only [List.nil_append] using h
  · intro fuel hfuel
    have h := runMenu_feed_none t pre rest hq h4 [] [] fuel (fun c hc => by cases hc) hfuel
    simpa only [List.nil_append] using h
  · intro s _ hout
    unfold response
    by_cases hfit : s.fits
    · left
      rw [if_neg (not_not_intro hfit), if_neg (by omega), if_neg (by omega), if_neg (by omega),
        if_neg (by omega)]
    · right
      rw [if_pos hfit]
  · intro fuel hfuel
    obtain ⟨extra, rfl⟩ : ∃ extra, fuel = 2 + extra := ⟨fuel - 2, by omega⟩
    have h := runMenu_feed (loadLoop content []) [{ option := 5, query := [] }] []
      (fun s hs h1 => by
        rw [List.mem_singleton] at hs
        rw [hs] at h1
        exact absurd h1 (by decide))
      (fun s hs => by
        rw [List.mem_singleton] at hs
        rw [hs]
        decide)
      [] [] extra (fun c hc => by cases hc)
    have hcin : ([] : Str) ++ (feed [{ option := 5, query := [] }] ++ '4' :: Char.ofNat 10 :: []) =
        "5\n4\n".toList := by decide
    have hlog : ([] : List Ev) ++ transcript (loadLoop content []) [{ option := 5, query := [] }] ++
        menuText ++ goodbye = menuText ++ [invalidOption] ++ menuText ++ goodbye := by
      have hr : response (loadLoop content []) { option := 5, query := [] } = [invalidOption] := by
        unfold response
        rw [if_neg (not_not_intro (by decide)), if_neg (by decide), if_neg (by decide),
          if_neg (by decide), if_neg (by decide)]
      simp only [transcript, hr, List.nil_append, List.append_nil]
    rw [hcin, hlog] at h
    have hn : [({ option := 5, query := [] } : Selection)].length + 1 + extra = 2 + extra := rfl
    rw [hn] at h
    unfold main
    simp only [loadFromFile, clear, writeBackup, if_true, h]
    rfl

theorem runMenu_ends_at_first_exit_witness :
    (∀ s ∈ sampleSelections, s.option = 1 → IsWord s.query) ∧
    (∀ s ∈ sampleSelections, s.option ≠ 4) ∧
    ((∀ fuel, sampleSelections.length < fuel →
      runMenu fuel { freq_ := [("apple".toList, 3)],
                     cin := feed sampleSelections ++ '4' :: Char.ofNat 10 :: "2\n".toList,
                     log := [] } =
        some { freq_ := [("apple".toList, 3)], cin := Char.ofNat 10 :: "2\n".toList,
               log := transcript [("apple".toList, 3)] sampleSelections ++ menuText ++
                 goodbye }) ∧
    (∀ fuel, fuel ≤ sampleSelections.length →
      runMenu fuel { freq_ := [("apple".toList, 3)],
                     cin := feed sampleSelections ++ '4' :: Char.ofNat 10 :: "2\n".toList,
                     log := [] } = none) ∧
    (∀ s ∈ sampleSelections, s.option < 1 ∨ 4 < s.option →
      response [("apple".toList, 3)] s = [invalidOption] ∨
        response [("apple".toList, 3)] s = [invalidInput]) ∧
    (∀ fuel, 2 ≤ fuel →
      main (some "apple banana apple".toList) true "5\n4\n".toList fuel =
        some { exitCode := 0,
               backup := some (backupText (loadLoop "apple banana apple".toList [])),
               cin := "\n".toList,
               log := menuText ++ [invalidOption] ++ menuText ++ goodbye })) :=
  ⟨by decide, by decide,
   runMenu_ends_at_first_exit [("apple".toList, 3)] sampleSelections "2\n".toList
     "apple banana apple".toList (by decide) (by decide)⟩

/-! ## The decimal text of a count -/

theorem digitChar_eq (d : Nat) (h : d < 10) : digitChar d = Nat.digitChar d := by
  interval_cases d <;> rfl

theorem toDigitsCore_eq (f n : Nat) (ds : Str) (h : n < f) :
    Nat.toDigitsCore 10 f n ds = natDigits f n ++ ds := by
  induction f generalizing n ds with
  | zero => omega
  | succ f ih =>
    rw [Nat.toDigitsCore, natDigits]
    by_cases h10 : n < 10
    · have h0 : n / 10 = 0 := by omega
      have hm : n % 10 = n := by omega
      simp only [h0, if_true, hm, h10]
      rw [digitChar_eq n h10]
      rfl
    · have h0 : ¬ n / 10 = 0 := by omega
      have hlt : n / 10 < f := by omega
      simp only [h0, if_false, h10]
      rw [ih (n / 10) _ hlt, digitChar_eq (n % 10) (Nat.mod_lt _ (by omega)),
        List.append_assoc]
      rfl

theorem showNat_eq_toString (n : Nat) : showNat n = (toString n).toList := by
  show showNat n = (Nat.toDigits 10 n)
  rw [Nat.toDigits, toDigitsCore_eq (n + 1) n [] (Nat.lt_succ_self n), List.append_nil]
  rfl

theorem showInt_eq_toString (i : Int) : showInt i = (toString i).toList := by
  cases i with
  | ofNat n =>
    have h : ¬ (Int.ofNat n < 0) := not_lt.mpr (Int.ofNat_nonneg n)
    rw [showInt, if_neg h]
    exact showNat_eq_toString n
  | negSucc n =>
    have h : Int.negSucc n < 0 := Int.negSucc_lt_zero n
    rw [showInt, if_pos h]
    show '-' :: showNat (n + 1) = ("-" ++ toString (n + 1)).toList
    rw [showNat_eq_toString]
    rfl

/-! ## The lines of the backup file -/

theorem backupText_eq_flatten (t : Table) :
    backupText t =
      (t.map (fun kv => kv.1 ++ ' ' :: ((toString kv.2).toList ++ [Char.ofNat 10]))).flatten := by
  induction t with
  | nil => rfl
  | cons kv rest ih =>
    rw [backupText, ih, List.map_cons, List.flatten_cons, backupLine, showInt_eq_toString]
    have h1 : " ".toList = [' '] := rfl
    have h2 : "\n".toList = [Char.ofNat 10] := rfl
    rw [h1, h2]
    simp only [List.append_assoc, List.cons_append, List.nil_append]

theorem splitLines_backupText (t : Table) (h : SolidKeys t) :
    splitLines (backupText t) = t.map (fun kv => kv.1 ++ ' ' :: (toString kv.2).toList) := by
  induction t with
  | nil => rfl
  | cons kv rest ih =>
    obtain ⟨k, v⟩ := kv
    have hk : ∀ c ∈ k, isSpace c = false := h k (List.mem_cons_self _ _)
    have hrest : SolidKeys rest := fun k1 hk1 => h k1 (List.mem_cons_of_mem _ hk1)
    have hnl : Char.ofNat 10 ∉ k := fun e => by
      have := hk _ e
      revert this
      decide
    have hline : Char.ofNat 10 ∉ k ++ ' ' :: showInt v := by
      intro e
      rcases List.mem_append.mp e with e | e
      · exact hnl e
      · rcases List.mem_cons.mp e with e | e
        · revert e
          decide
        · exact showInt_no_newline v e
    have htext : backupText ((k, v) :: rest) =
        (k ++ ' ' :: showInt v) ++ Char.ofNat 10 :: backupText rest := by
      simp only [backupText, backupLine, List.append_assoc]
      rfl
    rw [htext, splitLines_line _ _ hline, ih hrest, List.map_cons, showInt_eq_toString]

theorem length_keys_loadLoop (content : Str) :
    (keys (loadLoop content [])).length = (tokensOf content).dedup.length := by
  have hasc : Ascending (loadLoop content []) := by
    rw [loadLoop_eq_foldl]
    exact ascending_foldl _ _ List.Pairwise.nil
  have hnd := nodup_keys_of_ascending _ hasc
  apply List.Perm.length_eq
  rw [List.perm_ext_iff_of_nodup hnd (List.nodup_dedup _)]
  intro k
  rw [List.mem_dedup, loadLoop_eq_foldl]
  exact mem_keys_foldl _ k

/-- C11: the text `writeBackup` writes for a table is, entry after entry in the
order of the table, the item, one space, the count in decimal and a line end.
When no item holds white space, as in every table `loadFromFile` builds, these
are the lines of the text, as many as the table has items; the items of a table
in ascending order are distinct and in the order of `std::string`; and for a
loaded table the number of lines is the number of distinct words of the file. -/
theorem writeBackup_lines (t : Table) (out content : Str) :
    writeBackup t true out = .ok (backupText t) ∧
    backupText t =
      (t.map (fun kv => kv.1 ++ ' ' :: ((toString kv.2).toList ++ [Char.ofNat 10]))).flatten ∧
    (SolidKeys t →
      splitLines (backupText t) = t.map (fun kv => kv.1 ++ ' ' :: (toString kv.2).toList) ∧
      (splitLines (backupText t)).length = (keys t).length) ∧
    (Ascending t →
      (keys t).Nodup ∧ List.Pairwise (fun a b => String.mk a.1 < String.mk b.1) t) ∧
    Ascending (loadLoop content []) ∧ SolidKeys (loadLoop content []) ∧
    (splitLines (backupText (loadLoop content []))).length = (tokensOf content).dedup.length := by
  have hasc : Ascending (loadLoop content []) := by
    rw [loadLoop_eq_foldl]
    exact ascending_foldl _ _ List.Pairwise.nil
  refine ⟨rfl, backupText_eq_flatten t, ?_, ?_, hasc, solidKeys_loadLoop content, ?_⟩
  · intro hs
    refine ⟨splitLines_backupText t hs, ?_⟩
    rw [splitLines_backupText t hs, List.length_map, keys, List.length_map]
  · intro ha
    refine ⟨nodup_keys_of_ascending t ha, ?_⟩
    refine List.Pairwise.imp ?_ ha
    intro a b hab
    exact (strLt_iff_lt a.1 b.1).mp hab
  · rw [splitLines_backupText _ (solidKeys_loadLoop content), List.length_map,
      ← length_keys_loadLoop, keys, List.length_map]

/-! ## The list, and the reports of an empty table -/

theorem outText_listLines (t : Table) :
    outText (listLines t) =
      (t.map (fun kv => kv.1 ++ ' ' :: ((toString kv.2).toList ++ [Char.ofNat 10]))).flatten := by
  induction t with
  | nil => rfl
  | cons kv rest ih =>
    have h1 : outText (listLine kv) = kv.1 ++ ' ' :: (showInt kv.2 ++ [Char.ofNat 10]) := by
      show kv.1 ++ ([' '] ++ (showInt kv.2 ++ ([Char.ofNat 10] ++ []))) = _
      rfl
    rw [listLines, outText_append, ih, h1, List.map_cons, List.flatten_cons,
      showInt_eq_toString]

theorem tokensOf_sample :
    tokensOf "apple banana apple apple banana cherry".toList =
      ["apple".toList, "banana".toList, "apple".toList, "apple".toList, "banana".toList,
       "cherry".toList] := by
  simp [tokensOf, extractWord, isSpace]

theorem loadLoop_sample :
    loadLoop "apple banana apple apple banana cherry".toList [] =
      [("apple".toList, 3), ("banana".toList, 2), ("cherry".toList, 1)] := by
  rw [loadLoop_eq_foldl, tokensOf_sample]
  decide

/-- C12: for a table that is not empty, `printAll` prints its heading and then,
entry after entry in the order of the table, the item, a space, the count in
decimal and a line end. The file `apple banana apple apple banana cherry` loads
as apple 3, banana 2, cherry 1; the list shows `apple 3`, `banana 2`, `cherry 1`
in this order; the count of banana is 2 and the count of kiwi is 0. -/
theorem printAll_lines (t : Table) (h : t ≠ []) :
    outText (printAll t) =
      "\n=== Item Frequencies ===\n".toList ++
        (t.map (fun kv => kv.1 ++ ' ' :: ((toString kv.2).toList ++ [Char.ofNat 10]))).flatten ∧
    loadFromFile inputPath [] (some "apple banana apple apple banana cherry".toList) =
      .ok [("apple".toList, 3), ("banana".toList, 2), ("cherry".toList, 1)] ∧
    outText (printAll [("apple".toList, 3), ("banana".toList, 2), ("cherry".toList, 1)]) =
      "\n=== Item Frequencies ===\napple 3\nbanana 2\ncherry 1\n".toList ∧
    getFrequency [("apple".toList, 3), ("banana".toList, 2), ("cherry".toList, 1)]
      "banana".toList = 2 ∧
    getFrequency [("apple".toList, 3), ("banana".toList, 2), ("cherry".toList, 1)]
      "kiwi".toList = 0 := by
  refine ⟨?_, ?_, by decide, by decide, by decide⟩
  · have he : t.isEmpty = false := by
      cases t with
      | nil => exact absurd rfl h
      | cons a b => rfl
    unfold printAll
    rw [he]
    show _ ++ outText (listLines t) = _
    rw [outText_listLines]
  · show Except.ok (loadLoop "apple banana apple apple banana cherry".toList (clear [])) = _
    rw [clear, loadLoop_sample]

theorem printAll_lines_witness :
    [("apple".toList, (3 : Int))] ≠ [] ∧
    (outText (printAll [("apple".toList, 3)]) =
      "\n=== Item Frequencies ===\n".toList ++
        ([("apple".toList, (3 : Int))].map
          (fun kv => kv.1 ++ ' ' :: ((toString kv.2).toList ++ [Char.ofNat 10]))).flatten ∧
    loadFromFile inputPath [] (some "apple banana apple apple banana cherry".toList) =
      .ok [("apple".toList, 3), ("banana".toList, 2), ("cherry".toList, 1)] ∧
    outText (printAll [("apple".toList, 3), ("banana".toList, 2), ("cherry".toList, 1)]) =
      "\n=== Item Frequencies ===\napple 3\nbanana 2\ncherry 1\n".toList ∧
    getFrequency [("apple".toList, 3), ("banana".toList, 2), ("cherry".toList, 1)]
      "banana".toList = 2 ∧
    getFrequency [("apple".toList, 3), ("banana".toList, 2), ("cherry".toList, 1)]
      "kiwi".toList = 0) :=
  ⟨by decide, printAll_lines [("apple".toList, 3)] (by decide)⟩

/-- C13: for the empty table `printAll` prints its heading and the placeholder
`[No items loaded]` and no entry line, and `printHistogram` prints its heading
and the same placeholder, with no asterisk and no colour set; the table is empty
when the file holds no word. -/
theorem empty_table_reports :
    printAll [] = [Ev.out "\n=== Item Frequencies ===\n".toList, noItems] ∧
    printHistogram [] = [Ev.out "\n=== Purchase Histogram ===\n".toList, noItems] ∧
    noItems = Ev.out "[No items loaded]\n".toList ∧
    outText (printAll []) = "\n=== Item Frequencies ===\n[No items loaded]\n".toList ∧
    outText (printHistogram []) = "\n=== Purchase Histogram ===\n[No items loaded]\n".toList ∧
    '*' ∉ outText (printHistogram []) ∧
    colorsOf (printHistogram []) = [] ∧
    loadFromFile inputPath [] (some " \n\n ".toList) = .ok [] := by
  refine ⟨by decide, by decide, by decide, by decide, by decide, by decide, by decide, ?_⟩
  show Except.ok (loadLoop " \n\n ".toList (clear [])) = _
  rw [clear, loadLoop_eq_foldl]
  have : tokensOf " \n\n ".toList = [] := by
    simp [tokensOf, extractWord, isSpace]
  rw [this]
  rfl

/-! ## The table during the session -/

theorem runMenu_eq_runSteps (fuel : Nat) (m m1 : Machine) (h : runMenu fuel m = some m1) :
    m1 = runSteps fuel m := by
  induction fuel generalizing m with
  | zero => cases h
  | succ n ih =>
    rw [runMenu] at h
    rw [runSteps]
    cases hb : menuBody m with
    | running m2 =>
      rw [hb] at h
      exact ih m2 h
    | terminated m2 =>
      rw [hb] at h
      injection h with h
      exact h.symm

/-- C14: no iteration of the menu loop changes the table, whatever the input
holds: the machine after one iteration, after any number of iterations, and at
the end of every session that ends, has the table the session started with; so
has the session of the sample selections, which ends. -/
theorem runMenu_keeps_table (m : Machine) :
    (menuBody m).machine.freq_ = m.freq_ ∧
    (∀ n, (runSteps n m).freq_ = m.freq_) ∧
    (∀ fuel m1, runMenu fuel m = some m1 → m1.freq_ = m.freq_) ∧
    (∀ fuel, sampleSelections.length < fuel →
      (runMenu fuel { m with cin := feed sampleSelections ++ '4' :: Char.ofNat 10 :: m.cin }).map
        (fun m1 => m1.freq_) = some m.freq_) := by
  refine ⟨menuBody_freq m, fun n => runSteps_freq n m, ?_, ?_⟩
  · intro fuel m1 h
    rw [runMenu_eq_runSteps fuel m m1 h]
    exact runSteps_freq fuel m
  · intro fuel hfuel
    obtain ⟨extra, rfl⟩ : ∃ extra, fuel = sampleSelections.length + 1 + extra :=
      ⟨fuel - (sampleSelections.length + 1), by omega⟩
    have h := runMenu_feed m.freq_ sampleSelections m.cin (by decide) (by decide) [] m.log extra
      (fun c hc => by cases hc)
    rw [List.nil_append] at h
    rw [h]
    rfl

/-! ## White space between the words -/

theorem tokensOf_nil : tokensOf [] = [] := tokensOf_none [] [] rfl

theorem tokensOf_space_cons (c : Char) (s : Str) (hc : isSpace c = true) :
    tokensOf (c :: s) = tokensOf s := by
  apply tokensOf_congr
  unfold extractWord
  rw [List.dropWhile_cons, hc]
  rfl

theorem tokensOf_space_append (w s : Str) (hw : ∀ c ∈ w, isSpace c = true) :
    tokensOf (w ++ s) = tokensOf s := by
  induction w with
  | nil => rfl
  | cons c cs ih =>
    rw [List.cons_append, tokensOf_space_cons c _ (hw c (List.mem_cons_self _ _))]
    exact ih (fun d hd => hw d (List.mem_cons_of_mem _ hd))

theorem takeWhile_all (p : Char → Bool) (q : Str) (h : ∀ c ∈ q, p c = true) :
    q.takeWhile p = q := by
  induction q with
  | nil => rfl
  | cons c cs ih =>
    rw [List.takeWhile_cons, h c (List.mem_cons_self _ _)]
    show c :: _ = c :: cs
    rw [ih (fun d hd => h d (List.mem_cons_of_mem _ hd))]

theorem dropWhile_all (p : Char → Bool) (q : Str) (h : ∀ c ∈ q, p c = true) :
    q.dropWhile p = [] := by
  induction q with
  | nil => rfl
  | cons c cs ih =>
    rw [List.dropWhile_cons, h c (List.mem_cons_self _ _)]
    exact ih (fun d hd => h d (List.mem_cons_of_mem _ hd))

theorem not_space_of_word (q : Str) (hq : IsWord q) :
    ∀ d ∈ q, (fun c => !isSpace c) d = true := by
  intro d hd
  show (!isSpace d) = true
  rw [hq.2 d hd]
  rfl

theorem dropWhile_space_word (q tail : Str) (hq : IsWord q) :
    (q ++ tail).dropWhile isSpace = q ++ tail := by
  obtain ⟨c, cs, hcs⟩ := List.exists_cons_of_ne_nil hq.1
  have hc : isSpace c = false := hq.2 c (by rw [hcs]; exact List.mem_cons_self _ _)
  rw [hcs, List.cons_append, List.dropWhile_cons, hc]
  rfl

theorem extractWord_word_space (q : Str) (sp : Char) (tail : Str) (hq : IsWord q)
    (hsp : isSpace sp = true) :
    extractWord (q ++ sp :: tail) = (some q, sp :: tail) := by
  have hstop : (fun c => !isSpace c) sp = false := by
    show (!isSpace sp) = false
    rw [hsp]
    rfl
  unfold extractWord
  simp only [dropWhile_space_word q _ hq,
    takeWhile_append_stop _ q sp tail (not_space_of_word q hq) hstop,
    dropWhile_append_stop _ q sp tail (not_space_of_word q hq) hstop, if_neg hq.1]

theorem extractWord_word_end (q : Str) (hq : IsWord q) : extractWord q = (some q, []) := by
  have h := dropWhile_space_word q [] hq
  rw [List.append_nil] at h
  unfold extractWord
  simp only [h, takeWhile_all _ q (not_space_of_word q hq),
    dropWhile_all _ q (not_space_of_word q hq), if_neg hq.1]

theorem tokensOf_word_space (q : Str) (sp : Char) (tail : Str) (hq : IsWord q)
    (hsp : isSpace sp = true) :
    tokensOf (q ++ sp :: tail) = q :: tokensOf tail := by
  rw [tokensOf_some _ _ _ (extractWord_word_space q sp tail hq hsp),
    tokensOf_space_cons sp tail hsp]

theorem tokensOf_word_end (q : Str) (hq : IsWord q) : tokensOf q = [q] := by
  rw [tokensOf_some _ _ _ (extractWord_word_end q hq), tokensOf_nil]

theorem word_split (a : Str) :
    ∃ q r, a = q ++ r ∧ (∀ c ∈ q, isSpace c = false) ∧
      (r = [] ∨ ∃ sp r1, r = sp :: r1 ∧ isSpace sp = true) := by
  induction a with
  | nil => exact ⟨[], [], rfl, fun c hc => absurd hc (List.not_mem_nil c), Or.inl rfl⟩
  | cons c cs ih =>
    cases hc : isSpace c with
    | true =>
      exact ⟨[], c :: cs, rfl, fun d hd => absurd hd (List.not_mem_nil d),
        Or.inr ⟨c, cs, rfl, hc⟩⟩
    | false =>
      obtain ⟨q, r, hqr, hq, hr⟩ := ih
      refine ⟨c :: q, r, by rw [hqr]; rfl, ?_, hr⟩
      intro d hd
      rcases List.mem_cons.mp hd with e | e
      · rw [e]
        exact hc
      · exact hq d e

theorem tokensOf_append_sep (n : Nat) :
    ∀ (a w b : Str), a.length ≤ n → w ≠ [] → (∀ c ∈ w, isSpace c = true) →
      tokensOf (a ++ w ++ b) = tokensOf a ++ tokensOf b := by
  induction n with
  | zero =>
    intro a w b ha _ hw
    have : a = [] := List.length_eq_zero.mp (Nat.le_zero.mp ha)
    rw [this, List.nil_append, tokensOf_space_append w b hw, tokensOf_nil]
    rfl
  | succ n ih =>
    intro a w b ha hne hw
    cases a with
    | nil =>
      rw [List.nil_append, tokensOf_space_append w b hw, tokensOf_nil]
      rfl
    | cons c cs =>
      have hcs : cs.length ≤ n := by
        rw [List.length_cons] at ha
        omega
      cases hc : isSpace c with
      | true =>
        rw [List.cons_append, List.cons_append, tokensOf_space_cons c _ hc,
          tokensOf_space_cons c _ hc]
        exact ih cs w b hcs hne hw
      | false =>
        obtain ⟨q1, r, hqr, hq1, hr⟩ := word_split cs
        have hq : IsWord (c :: q1) := by
          refine ⟨List.cons_ne_nil _ _, ?_⟩
          intro d hd
          rcases List.mem_cons.mp hd with e | e
          · rw [e]
            exact hc
          · exact hq1 d e
        have ha2 : c :: cs = (c :: q1) ++ r := by rw [hqr]; rfl
        rw [ha2]
        rcases hr with hr | ⟨sp, r1, hr, hsp⟩
        · obtain ⟨sp, w1, hw1⟩ := List.exists_cons_of_ne_nil hne
          have hsp : isSpace sp = true := hw sp (by rw [hw1]; exact List.mem_cons_self _ _)
          have hw1s : ∀ d ∈ w1, isSpace d = true :=
            fun d hd => hw d (by rw [hw1]; exact List.mem_cons_of_mem _ hd)
          have hform : (c :: q1) ++ r ++ w ++ b = (c :: q1) ++ sp :: (w1 ++ b) := by
            rw [hr, hw1]
            simp only [List.append_assoc, List.cons_append, List.append_nil]
          rw [hform, tokensOf_word_space _ sp _ hq hsp, tokensOf_space_append w1 b hw1s, hr,
            List.append_nil, tokensOf_word_end _ hq]
          rfl
        · have hr1 : r1.length ≤ n := by
            have := congrArg List.length hqr
            rw [List.length_append, hr, List.length_cons] at this
            omega
          have hform : (c :: q1) ++ r ++ w ++ b = (c :: q1) ++ sp :: (r1 ++ w ++ b) := by
            rw [hr]
            simp only [List.append_assoc, List.cons_append]
          rw [hform, tokensOf_word_space _ sp _ hq hsp, ih r1 w b hr1 hne hw, hr,
            tokensOf_word_space _ sp _ hq hsp]
          rfl


theorem tokensOf_sep (a w b : Str) (hne : w ≠ []) (hw : ∀ c ∈ w, isSpace c = true) :
    tokensOf (a ++ w ++ b) = tokensOf a ++ tokensOf b :=
  tokensOf_append_sep a.length a w b (Nat.le_refl _) hne hw

theorem tokensOf_trailing (a w : Str) (hw : ∀ c ∈ w, isSpace c = true) :
    tokensOf (a ++ w) = tokensOf a := by
  by_cases hne : w = []
  · rw [hne, List.append_nil]
  · have h := tokensOf_sep a w [] hne hw
    rw [List.append_nil, tokensOf_nil, List.append_nil] at h
    exact h

/-- C15: every item of the table `loadFromFile` builds is a word: not empty and
free of white space. White space added in front of the text, after it, or next
to a white space character inside it leaves the loaded table as it is; one run
of white space between two parts of a text separates them like any other run;
and the words of two texts joined by white space are the words of the first
followed by the words of the second. -/
theorem loadFromFile_whitespace (path : Str) (old : Table) (content w : Str)
    (hw : ∀ c ∈ w, isSpace c = true) :
    loadFromFile path old (some content) = .ok (loadLoop content []) ∧
    (∀ k ∈ keys (loadLoop content []), k ≠ [] ∧ ∀ c ∈ k, isSpace c = false) ∧
    loadLoop (w ++ content) [] = loadLoop content [] ∧
    loadLoop (content ++ w) [] = loadLoop content [] ∧
    (∀ (a b : Str) (sp : Char), isSpace sp = true → content = a ++ sp :: b →
      loadLoop (a ++ sp :: (w ++ b)) [] = loadLoop content []) ∧
    (∀ (a b w1 : Str), w ≠ [] → w1 ≠ [] → (∀ c ∈ w1, isSpace c = true) →
      loadLoop (a ++ w ++ b) [] = loadLoop (a ++ w1 ++ b) []) ∧
    (∀ (a b : Str), w ≠ [] → tokensOf (a ++ w ++ b) = tokensOf a ++ tokensOf b) := by
  refine ⟨rfl, ?_, ?_, ?_, ?_, ?_, ?_⟩
  · intro k hk
    rw [loadLoop_eq_foldl, mem_keys_foldl] at hk
    exact solid_tokensOf content k hk
  · rw [loadLoop_eq_foldl, loadLoop_eq_foldl, tokensOf_space_append w content hw]
  · rw [loadLoop_eq_foldl, loadLoop_eq_foldl, tokensOf_trailing content w hw]
  · intro a b sp hsp hc
    have h1 : a ++ sp :: (w ++ b) = a ++ (sp :: w) ++ b := by
      simp only [List.append_assoc, List.cons_append]
    have h2 : content = a ++ [sp] ++ b := by
      rw [hc]
      simp only [List.append_assoc, List.cons_append, List.nil_append]
    have hsw : ∀ c ∈ sp :: w, isSpace c = true := by
      intro c hc2
      rcases List.mem_cons.mp hc2 with e | e
      · rw [e]
        exact hsp
      · exact hw c e
    have hs1 : ∀ c ∈ [sp], isSpace c = true := by
      intro c hc2
      rw [List.mem_singleton] at hc2
      rw [hc2]
      exact hsp
    rw [loadLoop_eq_foldl, loadLoop_eq_foldl, h1, h2,
      tokensOf_sep a (sp :: w) b (List.cons_ne_nil _ _) hsw,
      tokensOf_sep a [sp] b (List.cons_ne_nil _ _) hs1]
  · intro a b w1 hne hne1 hw1
    rw [loadLoop_eq_foldl, loadLoop_eq_foldl, tokensOf_sep a w b hne hw,
      tokensOf_sep a w1 b hne1 hw1]
  · intro a b hne
    exact tokensOf_sep a w b hne hw

theorem loadFromFile_whitespace_witness :
    (∀ c ∈ [' ', Char.ofNat 10, Char.ofNat 9], isSpace c = true) ∧
    (loadFromFile inputPath [] (some "apple banana".toList) =
      .ok (loadLoop "apple banana".toList []) ∧
    (∀ k ∈ keys (loadLoop "apple banana".toList []), k ≠ [] ∧ ∀ c ∈ k, isSpace c = false) ∧
    loadLoop ([' ', Char.ofNat 10, Char.ofNat 9] ++ "apple banana".toList) [] =
      loadLoop "apple banana".toList [] ∧
    loadLoop ("apple banana".toList ++ [' ', Char.ofNat 10, Char.ofNat 9]) [] =
      loadLoop "apple banana".toList [] ∧
    (∀ (a b : Str) (sp : Char), isSpace sp = true → "apple banana".toList = a ++ sp :: b →
      loadLoop (a ++ sp :: ([' ', Char.ofNat 10, Char.ofNat 9] ++ b)) [] =
        loadLoop "apple banana".toList []) ∧
    (∀ (a b w1 : Str), [' ', Char.ofNat 10, Char.ofNat 9] ≠ [] → w1 ≠ [] →
      (∀ c ∈ w1, isSpace c = true) →
      loadLoop (a ++ [' ', Char.ofNat 10, Char.ofNat 9] ++ b) [] = loadLoop (a ++ w1 ++ b) []) ∧
    (∀ (a b : Str), [' ', Char.ofNat 10, Char.ofNat 9] ≠ [] →
      tokensOf (a ++ [' ', Char.ofNat 10, Char.ofNat 9] ++ b) = tokensOf a ++ tokensOf b)) :=
  ⟨by decide, loadFromFile_whitespace inputPath [] "apple banana".toList
    [' ', Char.ofNat 10, Char.ofNat 9] (by decide)⟩

/-! ## Selections that are not numbers -/

theorem ignoreLine_line (l tail : Str) (h : Char.ofNat 10 ∉ l) :
    ignoreLine (l ++ Char.ofNat 10 :: tail) = tail := by
  induction l with
  | nil => exact ignoreLine_newline tail
  | cons c cs ih =>
    have hc : c ≠ Char.ofNat 10 := fun e => h (by rw [e]; exact List.mem_cons_self _ _)
    rw [List.cons_append, ignoreLine, if_neg hc]
    exact ih (fun e => h (List.mem_cons_of_mem _ e))

theorem ignoreLine_end (l : Str) (h : Char.ofNat 10 ∉ l) : ignoreLine l = [] := by
  induction l with
  | nil => rfl
  | cons c cs ih =>
    have hc : c ≠ Char.ofNat 10 := fun e => h (by rw [e]; exact List.mem_cons_self _ _)
    rw [ignoreLine, if_neg hc]
    exact ih (fun e => h (List.mem_cons_of_mem _ e))

theorem ignoreLine_readSign (s : Str) : ignoreLine (readSign s).2 = ignoreLine s := by
  cases s with
  | nil => rfl
  | cons c r =>
    rw [readSign]
    by_cases h1 : c = '-'
    · rw [if_pos h1, ignoreLine, if_neg (by rw [h1]; decide)]
    · rw [if_neg h1]
      by_cases h2 : c = '+'
      · rw [if_pos h2, ignoreLine, if_neg (by rw [h2]; decide)]
      · rw [if_neg h2]

theorem takeWhile_isDigit_append (cs x : Str) (hx : x.takeWhile isDigit = [])
    (hcs : ∀ d r, cs = d :: r → isDigit d = false) :
    (cs ++ x).takeWhile isDigit = [] := by
  cases cs with
  | nil => exact hx
  | cons d r =>
    rw [List.cons_append, List.takeWhile_cons, hcs d r rfl]
    rfl

theorem startsNumber_sign (c : Char) (cs : Str) (h : c = '-' ∨ c = '+')
    (hnum : startsNumber (c :: cs) = false) : ∀ d r, cs = d :: r → isDigit d = false := by
  intro d r e
  subst e
  rw [startsNumber, if_pos h] at hnum
  exact hnum

theorem startsNumber_other (c : Char) (cs : Str) (h : ¬ (c = '-' ∨ c = '+'))
    (hnum : startsNumber (c :: cs) = false) : isDigit c = false := by
  rw [startsNumber, if_neg h] at hnum
  exact hnum

theorem no_digits_readSign (c : Char) (cs x : Str) (hnum : startsNumber (c :: cs) = false)
    (hx : x.takeWhile isDigit = []) :
    (readSign (c :: cs ++ x)).2.takeWhile isDigit = [] := by
  rw [List.cons_append, readSign]
  by_cases h1 : c = '-'
  · rw [if_pos h1]
    exact takeWhile_isDigit_append cs x hx (startsNumber_sign c cs (Or.inl h1) hnum)
  · rw [if_neg h1]
    by_cases h2 : c = '+'
    · rw [if_pos h2]
      exact takeWhile_isDigit_append cs x hx (startsNumber_sign c cs (Or.inr h2) hnum)
    · rw [if_neg h2]
      have hd := startsNumber_other c cs (fun e => e.elim h1 h2) hnum
      show (c :: (cs ++ x)).takeWhile isDigit = []
      rw [List.takeWhile_cons, hd]
      rfl

theorem dropWhile_of_takeWhile_nil (p : Char → Bool) (l : Str) (h : l.takeWhile p = []) :
    l.dropWhile p = l := by
  have := List.takeWhile_append_dropWhile p l
  rw [h, List.nil_append] at this
  exact this

theorem readInt_not_number (w : Str) (c : Char) (cs x : Str)
    (hw : ∀ d ∈ w, isSpace d = true) (hc : isSpace c = false)
    (hnum : startsNumber (c :: cs) = false) (hx : x.takeWhile isDigit = []) :
    readInt (w ++ (c :: cs ++ x)) = (none, (readSign (c :: cs ++ x)).2) := by
  have hdrop : (w ++ (c :: cs ++ x)).dropWhile isSpace = c :: cs ++ x := by
    rw [List.cons_append]
    exact dropWhile_append_stop isSpace w c _ hw hc
  have ht := no_digits_readSign c cs x hnum hx
  unfold readInt
  simp only [hdrop, ht, dropWhile_of_takeWhile_nil _ _ ht, if_true]

theorem menuBody_not_number (t : Table) (w : Str) (c : Char) (cs x : Str) (log : List Ev)
    (hw : ∀ d ∈ w, isSpace d = true) (hc : isSpace c = false)
    (hnum : startsNumber (c :: cs) = false) (hx : x.takeWhile isDigit = []) :
    menuBody { freq_ := t, cin := w ++ (c :: cs ++ x), log := log } =
      Step.running { freq_ := t, cin := ignoreLine (c :: cs ++ x),
                     log := log ++ menuText ++ [invalidInput] } := by
  unfold menuBody
  simp only [readInt_not_number w c cs x hw hc hnum hx, ignoreLine_readSign]

/-- C16, as amended: let the text at the menu prompt, after any white space, be a
line that does not start a number: it has no digit at its start, nor after a sign
at its start. Then one iteration of `runMenu` prints the menu and one
invalid-selection message, keeps the table, stays in the loop and discards the
whole line: the input left is what follows the line end, or nothing when the
input ends in that line. All later iterations read from there: the session
after this iteration is the session on the rest of the input. -/
theorem menuBody_discards_bad_line (t : Table) (w : Str) (c : Char) (cs tail : Str)
    (log : List Ev) (hw : ∀ d ∈ w, isSpace d = true) (hc : isSpace c = false)
    (hnum : startsNumber (c :: cs) = false) (hnl : Char.ofNat 10 ∉ c :: cs) :
    menuBody { freq_ := t, cin := w ++ (c :: cs ++ Char.ofNat 10 :: tail), log := log } =
      Step.running { freq_ := t, cin := tail, log := log ++ menuText ++ [invalidInput] } ∧
    menuBody { freq_ := t, cin := w ++ (c :: cs), log := log } =
      Step.running { freq_ := t, cin := [], log := log ++ menuText ++ [invalidInput] } ∧
    (∀ n, runSteps (n + 1)
        { freq_ := t, cin := w ++ (c :: cs ++ Char.ofNat 10 :: tail), log := log } =
      runSteps n { freq_ := t, cin := tail, log := log ++ menuText ++ [invalidInput] }) ∧
    (∀ fuel, runMenu (fuel + 1)
        { freq_ := t, cin := w ++ (c :: cs ++ Char.ofNat 10 :: tail), log := log } =
      runMenu fuel { freq_ := t, cin := tail, log := log ++ menuText ++ [invalidInput] }) := by
  have h1 : menuBody { freq_ := t, cin := w ++ (c :: cs ++ Char.ofNat 10 :: tail), log := log } =
      Step.running { freq_ := t, cin := tail, log := log ++ menuText ++ [invalidInput] } := by
    rw [menuBody_not_number t w c cs (Char.ofNat 10 :: tail) log hw hc hnum rfl,
      ignoreLine_line (c :: cs) tail hnl]
  refine ⟨h1, ?_, ?_, ?_⟩
  · have h := menuBody_not_number t w c cs [] log hw hc hnum rfl
    rw [List.append_nil] at h
    rw [h, ignoreLine_end (c :: cs) hnl]
  · intro n
    rw [runSteps, h1]
  · intro fuel
    rw [runMenu, h1]

theorem menuBody_discards_bad_line_witness :
    (∀ d ∈ [Char.ofNat 10], isSpace d = true) ∧ isSpace 'a' = false ∧
    startsNumber ('a' :: "bc 4".toList) = false ∧ Char.ofNat 10 ∉ 'a' :: "bc 4".toList ∧
    (menuBody { freq_ := [("apple".toList, 3)],
                cin := [Char.ofNat 10] ++ ('a' :: "bc 4".toList ++ Char.ofNat 10 :: "4\n".toList),
                log := [] } =
      Step.running { freq_ := [("apple".toList, 3)], cin := "4\n".toList,
                     log := [] ++ menuText ++ [invalidInput] } ∧
    menuBody { freq_ := [("apple".toList, 3)],
               cin := [Char.ofNat 10] ++ ('a' :: "bc 4".toList), log := [] } =
      Step.running { freq_ := [("apple".toList, 3)], cin := [],
                     log := [] ++ menuText ++ [invalidInput] } ∧
    (∀ n, runSteps (n + 1)
        { freq_ := [("apple".toList, 3)],
          cin := [Char.ofNat 10] ++ ('a' :: "bc 4".toList ++ Char.ofNat 10 :: "4\n".toList),
          log := [] } =
      runSteps n { freq_ := [("apple".toList, 3)], cin := "4\n".toList,
                   log := [] ++ menuText ++ [invalidInput] }) ∧
    (∀ fuel, runMenu (fuel + 1)
        { freq_ := [("apple".toList, 3)],
          cin := [Char.ofNat 10] ++ ('a' :: "bc 4".toList ++ Char.ofNat 10 :: "4\n".toList),
          log := [] } =
      runMenu fuel { freq_ := [("apple".toList, 3)], cin := "4\n".toList,
                     log := [] ++ menuText ++ [invalidInput] })) :=
  ⟨by decide, by decide, by decide, by decide,
   menuBody_discards_bad_line [("apple".toList, 3)] [Char.ofNat 10] 'a' "bc 4".toList
     "4\n".toList [] (by decide) (by decide) (by decide) (by decide)⟩

/-- C16 fails as stated: `12abc` and `4abc` are not numbers, but `std::cin >>
option` reads the digits they start with. On `12abc` the first iteration reports
the number 12 as an invalid option and leaves `abc` unread at the next prompt,
where it draws a second message; on `4abc` the session reads 4 and ends. -/
theorem menuBody_digit_prefix :
    parseInt "12abc".toList = none ∧ parseInt "4abc".toList = none ∧
    menuBody { freq_ := [], cin := "12abc\n".toList, log := [] } =
      Step.running { freq_ := [], cin := "abc\n".toList, log := menuText ++ [invalidOption] } ∧
    runSteps 2 { freq_ := [], cin := "12abc\n".toList, log := [] } =
      { freq_ := [], cin := [],
        log := menuText ++ [invalidOption] ++ menuText ++ [invalidInput] } ∧
    menuBody { freq_ := [], cin := "4abc\n".toList, log := [] } =
      Step.terminated { freq_ := [], cin := "abc\n".toList, log := menuText ++ goodbye } := by
  decide

/-! ## Order of the words, and loading again -/

theorem mem_keys_of_find (t : Table) (k : Str) (v : Int) (h : find t k = some v) :
    k ∈ keys t := by
  by_contra hn
  rw [(find_eq_none_iff t k).mpr hn] at h
  cases h

theorem strLt_of_mem_tail (kv : Str × Int) (rest : Table) (k : Str)
    (h : Ascending (kv :: rest)) (hk : k ∈ keys rest) : strLt kv.1 k = true := by
  unfold Ascending at h
  rw [List.pairwise_cons] at h
  obtain ⟨c, hc, hc2⟩ := List.mem_map.mp hk
  rw [← hc2]
  exact h.1 c hc

theorem find_head (k : Str) (v : Int) (rest : Table) : find ((k, v) :: rest) k = some v := by
  rw [find, if_pos rfl]

theorem table_ext (t1 t2 : Table) (h1 : Ascending t1) (h2 : Ascending t2)
    (h : ∀ k, find t1 k = find t2 k) : t1 = t2 := by
  induction t1 generalizing t2 with
  | nil =>
    cases t2 with
    | nil => rfl
    | cons kv2 r2 =>
      have := h kv2.1
      rw [find_head] at this
      cases this
  | cons kv1 r1 ih =>
    obtain ⟨k1, v1⟩ := kv1
    cases t2 with
    | nil =>
      have := h k1
      rw [find_head] at this
      cases this
    | cons kv2 r2 =>
      obtain ⟨k2, v2⟩ := kv2
      have hk : k1 = k2 := by
        by_contra hne
        have ha := h k1
        rw [find_head, find, if_neg (fun e => hne e.symm)] at ha
        have hb := h k2
        rw [find_head, find, if_neg hne] at hb
        have l1 := strLt_of_mem_tail (k2, v2) r2 k1 h2 (mem_keys_of_find r2 k1 v1 ha.symm)
        have l2 := strLt_of_mem_tail (k1, v1) r1 k2 h1 (mem_keys_of_find r1 k2 v2 hb)
        have := strLt_asymm _ _ l1
        rw [l2] at this
        cases this
      subst hk
      have hv : v1 = v2 := by
        have ha := h k1
        rw [find_head, find_head] at ha
        injection ha
      subst hv
      have a1 : Ascending r1 := by
        unfold Ascending at h1 ⊢
        exact (List.pairwise_cons.mp h1).2
      have a2 : Ascending r2 := by
        unfold Ascending at h2 ⊢
        exact (List.pairwise_cons.mp h2).2
      have hrest : ∀ k, find r1 k = find r2 k := by
        intro k
        by_cases hk : k1 = k
        · subst hk
          have n1 : find r1 k1 = none := by
            rw [find_eq_none_iff]
            intro hm
            have := strLt_of_mem_tail (k1, v1) r1 k1 h1 hm
            rw [strLt_irrefl] at this
            cases this
          have n2 : find r2 k1 = none := by
            rw [find_eq_none_iff]
            intro hm
            have := strLt_of_mem_tail (k1, v1) r2 k1 h2 hm
            rw [strLt_irrefl] at this
            cases this
          rw [n1, n2]
        · have := h k
          rw [find, if_neg hk, find, if_neg hk] at this
          exact this
      rw [ih r2 a1 a2 hrest]

theorem foldl_increment_perm (l1 l2 : List Str) (h : l1.Perm l2) :
    l1.foldl increment [] = l2.foldl increment [] := by
  apply table_ext _ _ (ascending_foldl l1 [] List.Pairwise.nil)
    (ascending_foldl l2 [] List.Pairwise.nil)
  intro k
  have hc : l1.count k = l2.count k := h.countP_eq _
  rw [find_foldl, find_foldl, hc]

/-- C17: two files whose words are the same up to their order load as the same
table: the same entries, with the same counts, in the same order. -/
theorem loadFromFile_perm (path : Str) (old : Table) (content1 content2 : Str)
    (h : (tokensOf content1).Perm (tokensOf content2)) :
    loadFromFile path old (some content1) = loadFromFile path old (some content2) ∧
    loadLoop content1 [] = loadLoop content2 [] ∧
    keys (loadLoop content1 []) = keys (loadLoop content2 []) ∧
    (∀ item, getFrequency (loadLoop content1 []) item =
      getFrequency (loadLoop content2 []) item) := by
  have he : loadLoop content1 [] = loadLoop content2 [] := by
    rw [loadLoop_eq_foldl, loadLoop_eq_foldl]
    exact foldl_increment_perm _ _ h
  refine ⟨?_, he, ?_, ?_⟩
  · show Except.ok (loadLoop content1 (clear old)) = Except.ok (loadLoop content2 (clear old))
    rw [clear, he]
  · rw [he]
  · intro item
    rw [he]

theorem loadFromFile_perm_witness :
    (tokensOf "pear apple pear".toList).Perm (tokensOf "apple pear pear".toList) ∧
    (loadFromFile inputPath [] (some "pear apple pear".toList) =
      loadFromFile inputPath [] (some "apple pear pear".toList) ∧
    loadLoop "pear apple pear".toList [] = loadLoop "apple pear pear".toList [] ∧
    keys (loadLoop "pear apple pear".toList []) = keys (loadLoop "apple pear pear".toList []) ∧
    (∀ item, getFrequency (loadLoop "pear apple pear".toList []) item =
      getFrequency (loadLoop "apple pear pear".toList []) item)) :=
  have hp : (tokensOf "pear apple pear".toList).Perm (tokensOf "apple pear pear".toList) := by
    have h1 : tokensOf "pear apple pear".toList =
        ["pear".toList, "apple".toList, "pear".toList] := by
      simp [tokensOf, extractWord, isSpace]
    have h2 : tokensOf "apple pear pear".toList =
        ["apple".toList, "pear".toList, "pear".toList] := by
      simp [tokensOf, extractWord, isSpace]
    rw [h1, h2]
    decide
  ⟨hp, loadFromFile_perm inputPath [] "pear apple pear".toList "apple pear pear".toList hp⟩

/-- C18: `loadFromFile` clears the table before it counts: whatever the table
held, loading a readable file gives the table that loading it into the empty
table gives, so loading the same file a second time gives the same table and the
same counts again. Counting the file `a` into a table that already holds `a`
once would give the count 2; `loadFromFile` gives 1. -/
theorem loadFromFile_clears (path : Str) (old : Table) (content : Str) :
    loadFromFile path old (some content) = loadFromFile path [] (some content) ∧
    loadFromFile path old (some content) = .ok (loadLoop content []) ∧
    loadFromFile path (loadLoop content []) (some content) = .ok (loadLoop content []) ∧
    loadLoop ['a'] [(['a'], 1)] = [(['a'], 2)] ∧
    loadFromFile path [(['a'], 1)] (some ['a']) = .ok [(['a'], 1)] := by
  refine ⟨rfl, rfl, rfl, ?_, ?_⟩
  · rw [loadLoop_eq_foldl, tokensOf_word_end ['a'] (by decide)]
    decide
  · show Except.ok (loadLoop ['a'] (clear [(['a'], 1)])) = _
    rw [clear, loadLoop_eq_foldl, tokensOf_word_end ['a'] (by decide)]
    rfl

end CornerGrocer
